import Mathlib

/-!
Verification of the CPM (Critical Path Method) scheduler implemented in
`app.py` of the repository `CPM_Automation_python`.

The algorithmic core of the program is the function `calculate_cpm`, which
builds an ordered mapping from activity name to an activity record, runs a
forward pass in insertion order, a backward pass in reversed insertion
order, and finally extracts the critical path (activities with
`earliest_start == latest_start`).  The Flask route `calculate` guards the
call with an equal-length check on the three input lists.

The embedding below mirrors the Python code statement by statement:

* a Python `dict` (insertion ordered, unique keys) is modelled as an
  association list `AList := List (String × ActRec)` whose insertion
  function `dictInsert` replaces in place or appends, exactly like a dict
  assignment;
* the floating-point sentinel `float('inf')` used to initialize the
  `latest_start` / `latest_finish` fields is modelled by the type
  `EInt := Option Int`, where `none` stands for `+infinity`;
* Python exceptions (`KeyError`, `ValueError`, `IndexError`) and the error
  branch of the route are modelled with an `Except PyError` result;
* iteration over dict keys is modelled by `foldSteps` over the key list,
  each step reading and writing the association list exactly where the
  Python statements read and write the dict.
-/

namespace CPM

/-- Extended integers: `none` models the floating point `+infinity`
(`float('inf')`) used by `app.py` as the "unbounded" sentinel for the
`latest_start` / `latest_finish` fields; `some v` is a finite value. -/
abbrev EInt := Option Int

/-- `min` on `EInt`, mirroring Python's `min` applied to values that may be
`float('inf')` (line 37 of `app.py`). -/
def eMin : EInt → EInt → EInt
  | none, y => y
  | some x, none => some x
  | some x, some y => some (min x y)

/-- Subtraction of a finite value from an `EInt`, mirroring Python's
`latest_finish - duration` where `latest_finish` may be `float('inf')`
(`inf - d = inf`). -/
def eSub : EInt → Int → EInt
  | none, _ => none
  | some x, d => some (x - d)

/-- Boolean order on `EInt` with `none` as the top element (`+infinity`). -/
def eLEb : EInt → EInt → Bool
  | _, none => true
  | none, some _ => false
  | some x, some y => decide (x ≤ y)

/-- One activity record, mirroring the Python dict literal built at lines
11–18 of `app.py` (same fields, same order). -/
structure ActRec where
  duration : Int
  predecessors : List String
  earliest_start : Int
  earliest_finish : Int
  latest_start : EInt
  latest_finish : EInt
deriving Repr, DecidableEq

/-- The activity mapping `activity_dict`: an insertion-ordered association
list from activity name to record, modelling the Python dict. -/
abbrev AList := List (String × ActRec)

/-- Errors of the computation.  `keyError`, `valueError` and `indexError`
model the Python exceptions that `calculate_cpm` can raise; `mismatchedInput`
models the error branch of the `/calculate` route (line 132), which the
specification calls `MismatchedInputError`.  `danglingPredecessor` is
modelled from the spec: it names the `DanglingPredecessorError` class that
the specification's error taxonomy requires but that the source never
raises (the source instead hits a `KeyError` inside the passes). -/
inductive PyError where
  | keyError (name : String)
  | valueError (text : String)
  | indexError
  | mismatchedInput
  | danglingPredecessor (name : String)
deriving Repr, DecidableEq

/-- First-match lookup in the association list, modelling `activity_dict[k]`
reads (`none` models a `KeyError` site). -/
def lookup : AList → String → Option ActRec
  | [], _ => none
  | (k', r) :: d, k => if k' = k then some r else lookup d k

/-- Replace the record stored at key `k` (first matching entry), keeping its
position — the behaviour of `activity_dict[k] = r` when `k` is present. -/
def setKey : AList → String → ActRec → AList
  | [], _, _ => []
  | (k', r') :: d, k, r => if k' = k then (k, r) :: d else (k', r') :: setKey d k r

/-- Dict assignment `activity_dict[k] = r`: replace in place when the key
exists, append otherwise (Python dicts keep insertion order). -/
def dictInsert (d : AList) (k : String) (r : ActRec) : AList :=
  if (lookup d k).isSome then setKey d k r else d ++ [(k, r)]

/-- The key list of the mapping in insertion order
(`list(activity_dict.keys())`, line 30 of `app.py`). -/
def keys (d : AList) : List String := d.map Prod.fst

/-- Run a fallible step function over a list of keys, threading the mapping
through; models a Python `for` loop whose body may raise. -/
def foldSteps (f : AList → String → Except PyError AList) :
    AList → List String → Except PyError AList
  | d, [] => .ok d
  | d, k :: ks =>
    match f d k with
    | .error e => .error e
    | .ok d' => foldSteps f d' ks

/-- Split a character list at every comma, keeping empty pieces — the
behaviour of Python's `str.split(',')` on a non-empty string. -/
def splitCommaAux : List Char → List Char → List (List Char)
  | [], acc => [acc.reverse]
  | c :: cs, acc =>
    if c = ',' then acc.reverse :: splitCommaAux cs [] else splitCommaAux cs (c :: acc)

/-- `predecessors[i].split(',') if predecessors[i] else []` (line 13 of
`app.py`): the empty string is falsy and yields `[]`; otherwise split at
every comma. -/
def splitPreds (s : String) : List String :=
  if s = "" then [] else (splitCommaAux s.toList []).map List.asString

/-- Accumulate the decimal value of a digit string; `none` on the first
non-digit character. -/
def digitsVal : List Char → Nat → Option Nat
  | [], acc => some acc
  | c :: cs, acc =>
    if c.isDigit then digitsVal cs (acc * 10 + (c.toNat - 48)) else none

/-- Value of a non-empty decimal digit string, `none` otherwise. -/
def parseDigits : List Char → Option Nat
  | [] => none
  | cs => digitsVal cs 0

/-- Model of Python's `int(s)` on optionally signed decimal strings:
`some` of the parsed integer (note that negative strings such as `"-3"`
parse successfully), `none` when the call would raise `ValueError`.
Exotic accepted forms (surrounding whitespace, underscore separators) are
not modelled; none of the properties below depends on them. -/
def pythonInt (s : String) : Option Int :=
  match s.toList with
  | '-' :: cs => (parseDigits cs).map (fun n => -(n : Int))
  | '+' :: cs => (parseDigits cs).map (fun n => (n : Int))
  | cs => (parseDigits cs).map (fun n => (n : Int))

/-- Python's `max` over a non-empty list (line 27 of `app.py`); the `[]`
case is dead code, guarded by the `else` branch of the forward pass. -/
def maxList : List Int → Int
  | [] => 0
  | x :: xs => xs.foldl max x

/-- The dict-building loop of `calculate_cpm` (lines 9–18 of `app.py`):
for each index, evaluate `int(durations[i])` (a missing index is an
`IndexError`, a failed parse a `ValueError`), then split
`predecessors[i]`, then assign the fresh record into the dict. -/
def buildDict : AList → List String → List String → List String →
    Except PyError AList
  | d, [], _, _ => .ok d
  | _, _ :: _, [], _ => .error .indexError
  | d, a :: as, du :: dus, ps =>
    match pythonInt du with
    | none => .error (.valueError du)
    | some n =>
      match ps with
      | [] => .error .indexError
      | p :: ps' =>
        buildDict
          (dictInsert d a
            { duration := n
              predecessors := splitPreds p
              earliest_start := 0
              earliest_finish := 0
              latest_start := none
              latest_finish := none })
          as dus ps'

/-- The list comprehension of line 26 of `app.py`: the `earliest_finish`
of every predecessor, raising `KeyError` at the first missing name. -/
def predEFs (d : AList) : List String → Except PyError (List Int)
  | [] => .ok []
  | p :: ps =>
    match lookup d p with
    | none => .error (.keyError p)
    | some r =>
      match predEFs d ps with
      | .error e => .error e
      | .ok xs => .ok (r.earliest_finish :: xs)

/-- One iteration of the forward pass (lines 21–28 of `app.py`): if the
activity has no predecessors, `ES = 0` and `EF = duration`; otherwise
`ES = max` of the predecessors' `EF` and `EF = ES + duration`. -/
def forwardStep (d : AList) (a : String) : Except PyError AList :=
  match lookup d a with
  | none => .error (.keyError a)
  | some r =>
    if r.predecessors = [] then
      .ok (setKey d a { r with earliest_start := 0, earliest_finish := r.duration })
    else
      match predEFs d r.predecessors with
      | .error e => .error e
      | .ok efs =>
        .ok (setKey d a
          { r with
            earliest_start := maxList efs
            earliest_finish := maxList efs + r.duration })

/-- The forward pass: iterate over the dict keys in insertion order. -/
def forwardPass (d : AList) : Except PyError AList :=
  foldSteps forwardStep d (keys d)

/-- Lines 37–38 of `app.py`, for one predecessor `p` of activity `a`:
`p.latest_finish = min(p.latest_finish, a.latest_start)` followed
immediately by `p.latest_start = p.latest_finish - p.duration`, every value
read fresh from the dict. -/
def tightenStep (a : String) (d : AList) (p : String) : Except PyError AList :=
  match lookup d p with
  | none => .error (.keyError p)
  | some pr =>
    match lookup d a with
    | none => .error (.keyError a)
    | some ar =>
      .ok (setKey d p
        { pr with
          latest_finish := eMin pr.latest_finish ar.latest_start
          latest_start := eSub (eMin pr.latest_finish ar.latest_start) pr.duration })

/-- One iteration of the backward pass (lines 32–38 of `app.py`): anchor
`latest_finish` to the activity's own `earliest_finish` when it is still the
infinity sentinel, set `latest_start = latest_finish - duration`, then
tighten every predecessor in turn. -/
def backwardStep (d : AList) (a : String) : Except PyError AList :=
  match lookup d a with
  | none => .error (.keyError a)
  | some r =>
    match r.latest_finish with
    | none =>
      foldSteps (tightenStep a)
        (setKey d a
          { r with
            latest_finish := some r.earliest_finish
            latest_start := some (r.earliest_finish - r.duration) })
        r.predecessors
    | some v =>
      foldSteps (tightenStep a)
        (setKey d a
          { r with
            latest_finish := some v
            latest_start := some (v - r.duration) })
        r.predecessors

/-- The backward pass: iterate over the dict keys in reversed insertion
order (`for activity in reversed(all_activities)`). -/
def backwardPass (d : AList) : Except PyError AList :=
  foldSteps backwardStep d (keys d).reverse

/-- The criticality test of line 42 of `app.py`:
`earliest_start == latest_start`.  `earliest_start` is an `Int` while
`latest_start` may still be the infinity sentinel; as in Python, a finite
value never equals infinity. -/
def isCritical (r : ActRec) : Bool :=
  match r.latest_start with
  | none => false
  | some ls => decide (r.earliest_start = ls)

/-- Critical-path extraction (lines 40–44 of `app.py`): the activity names
whose `earliest_start` equals `latest_start`, in insertion order. -/
def criticalPath (d : AList) : List String :=
  (d.filter (fun kv => isCritical kv.2)).map Prod.fst

/-- `calculate_cpm(activities, durations, predecessors)` (lines 8–45 of
`app.py`): build the activity dict, run the forward pass, the backward
pass, and return the critical path together with the dict. -/
def calculate_cpm (activities durations predecessors : List String) :
    Except PyError (List String × AList) :=
  match buildDict [] activities durations predecessors with
  | .error e => .error e
  | .ok d0 =>
    match forwardPass d0 with
    | .error e => .error e
    | .ok d1 =>
      match backwardPass d1 with
      | .error e => .error e
      | .ok d2 => .ok (criticalPath d2, d2)

/-- The `/calculate` route handler (lines 121–132 of `app.py`), restricted
to its computational content: when the three input lists have equal length
it runs `calculate_cpm`, otherwise it rejects the request with the
mismatched-input error ("Error: Mismatch in input lengths."). -/
def calculate (activities durations predecessors : List String) :
    Except PyError (List String × AList) :=
  if activities.length = durations.length ∧ durations.length = predecessors.length then
    calculate_cpm activities durations predecessors
  else
    .error .mismatchedInput

/-! ### Order lemmas for the extended integers -/

theorem eLEb_refl (x : EInt) : eLEb x x = true := by
  cases x <;> simp [eLEb]

theorem eLEb_trans {x y z : EInt} (h₁ : eLEb x y = true) (h₂ : eLEb y z = true) :
    eLEb x z = true := by
  cases x <;> cases y <;> cases z <;> simp_all [eLEb]
  omega

theorem eLEb_eMin_left (x y : EInt) : eLEb (eMin x y) x = true := by
  cases x <;> cases y <;> simp [eMin, eLEb, eLEb_refl]

theorem eLEb_eMin_right (x y : EInt) : eLEb (eMin x y) y = true := by
  cases x <;> cases y <;> simp [eMin, eLEb, eLEb_refl]

theorem eMin_isSome_left {x : EInt} (y : EInt) (h : x.isSome = true) :
    (eMin x y).isSome = true := by
  cases x <;> cases y <;> simp_all [eMin]

/-! ### Association-list lemmas -/

theorem lookup_setKey_self {d : AList} {k : String}
    (h : (lookup d k).isSome = true) (r' : ActRec) :
    lookup (setKey d k r') k = some r' := by
  induction d with
  | nil => simp [lookup] at h
  | cons kv t ih =>
    by_cases hk : kv.1 = k
    · simp [lookup, setKey, hk]
    · simp only [lookup, setKey, hk, if_false] at h ⊢
      exact ih h

theorem lookup_setKey_ne {d : AList} {k k' : String} (r : ActRec) (h : k' ≠ k) :
    lookup (setKey d k r) k' = lookup d k' := by
  induction d with
  | nil => simp [setKey]
  | cons kv t ih =>
    by_cases hk : kv.1 = k
    · have : k ≠ k' := fun he => h he.symm
      simp [lookup, setKey, hk, this]
    · by_cases hk' : kv.1 = k'
      · simp [lookup, setKey, hk, hk', h]
      · simp [lookup, setKey, hk, hk', ih]

theorem keys_setKey (d : AList) (k : String) (r : ActRec) :
    keys (setKey d k r) = keys d := by
  induction d with
  | nil => rfl
  | cons kv t ih =>
    by_cases hk : kv.1 = k
    · simp [keys, setKey, hk]
    · simpa [keys, setKey, hk] using ih

theorem lookup_isSome_iff_mem_keys (d : AList) (k : String) :
    (lookup d k).isSome = true ↔ k ∈ keys d := by
  induction d with
  | nil => simp [lookup, keys]
  | cons kv t ih =>
    by_cases hk : kv.1 = k
    · simp [lookup, keys, hk]
    · have : k ≠ kv.1 := fun he => hk he.symm
      simp [lookup, keys, hk, this, ih]

theorem lookup_mem (d : AList) (k : String) {r : ActRec}
    (h : lookup d k = some r) : (k, r) ∈ d := by
  induction d with
  | nil => simp [lookup] at h
  | cons kv t ih =>
    obtain ⟨k1, r1⟩ := kv
    by_cases hk : k1 = k
    · subst hk
      simp only [lookup, if_pos rfl] at h
      cases h
      exact List.mem_cons_self _ _
    · simp only [lookup, hk, if_false] at h
      exact List.mem_cons_of_mem _ (ih h)

theorem mem_lookup_of_nodup {d : AList} (hnd : (keys d).Nodup)
    {k : String} {r : ActRec} (h : (k, r) ∈ d) : lookup d k = some r := by
  induction d with
  | nil => simp at h
  | cons kv t ih =>
    simp only [keys, List.map_cons, List.nodup_cons] at hnd
    rcases List.mem_cons.mp h with he | hm
    · cases he
      simp [lookup]
    · have hk : kv.1 ≠ k := by
        intro he
        exact hnd.1 (he ▸ (List.mem_map.mpr ⟨(k, r), hm, rfl⟩))
      simp only [lookup, hk, if_false]
      exact ih hnd.2 hm

/-! ### Dict insertion -/

theorem keys_dictInsert (d : AList) (k : String) (r : ActRec) :
    keys (dictInsert d k r) = if (lookup d k).isSome then keys d else keys d ++ [k] := by
  unfold dictInsert
  split
  · simp [keys_setKey]
  · simp [keys]

theorem nodup_keys_dictInsert {d : AList} (hnd : (keys d).Nodup)
    (k : String) (r : ActRec) : (keys (dictInsert d k r)).Nodup := by
  rw [keys_dictInsert]
  split
  · exact hnd
  · rename_i h
    have hk : k ∉ keys d := by
      intro hm
      exact h ((lookup_isSome_iff_mem_keys d k).mpr hm)
    simpa [List.nodup_append] using ⟨hnd, hk⟩

theorem buildDict_nodup :
    ∀ (as ds ps : List String) (acc d : AList), (keys acc).Nodup →
      buildDict acc as ds ps = .ok d → (keys d).Nodup := by
  intro as
  induction as with
  | nil =>
    intro ds ps acc d hnd h
    cases h
    exact hnd
  | cons a as ih =>
    intro ds ps acc d hnd h
    cases ds with
    | nil => simp [buildDict] at h
    | cons du dus =>
      unfold buildDict at h
      cases hpi : pythonInt du with
      | none => rw [hpi] at h; exact absurd h (by simp)
      | some n =>
        rw [hpi] at h
        cases ps with
        | nil => exact absurd h (by simp)
        | cons p ps' =>
          exact ih dus ps' _ d (nodup_keys_dictInsert hnd a _) h

/-! ### Views: the record fields each pass leaves untouched

The forward pass only writes `earliest_start` / `earliest_finish`; the
backward pass only writes `latest_start` / `latest_finish`; neither touches
`duration` or `predecessors`, and neither adds or removes dict keys.  The
view lemmas below make these frame conditions available. -/

def viewOf {β : Type} (f : ActRec → β) (d : AList) : List (String × β) :=
  d.map (fun kv => (kv.1, f kv.2))

/-- Duration and predecessor list: untouched by both passes. -/
def skelF (r : ActRec) : Int × List String := (r.duration, r.predecessors)

/-- Everything but the earliest fields: untouched by the forward pass. -/
def lslfF (r : ActRec) : Int × List String × EInt × EInt :=
  (r.duration, r.predecessors, r.latest_start, r.latest_finish)

/-- Everything but the latest fields: untouched by the backward pass. -/
def esefF (r : ActRec) : Int × List String × Int × Int :=
  (r.duration, r.predecessors, r.earliest_start, r.earliest_finish)

theorem viewOf_keys {β : Type} (f : ActRec → β) {d d' : AList}
    (h : viewOf f d = viewOf f d') : keys d = keys d' := by
  have h1 : ∀ e : AList, (viewOf f e).map Prod.fst = keys e := by
    intro e
    simp [viewOf, keys, List.map_map]
  rw [← h1 d, ← h1 d', h]

theorem viewOf_lookup_none {β : Type} (f : ActRec → β) :
    ∀ {d d' : AList}, viewOf f d = viewOf f d' →
      ∀ k, lookup d k = none → lookup d' k = none := by
  intro d
  induction d with
  | nil =>
    intro d' h k _
    have : d' = [] := by
      cases d' with
      | nil => rfl
      | cons kv t => simp [viewOf] at h
    subst this
    rfl
  | cons kv t ih =>
    intro d' h k hk
    cases d' with
    | nil => simp [viewOf] at h
    | cons kv' t' =>
      simp only [viewOf, List.map_cons, List.cons.injEq, Prod.mk.injEq] at h
      obtain ⟨⟨hkk, _⟩, ht⟩ := h
      by_cases he : kv.1 = k
      · simp [lookup, he] at hk
      · simp only [lookup, he, if_false] at hk
        simp only [lookup, hkk ▸ he, if_false]
        exact ih ht k hk

theorem viewOf_lookup_some {β : Type} (f : ActRec → β) :
    ∀ {d d' : AList}, viewOf f d = viewOf f d' →
      ∀ {k : String} {r : ActRec}, lookup d k = some r →
        ∃ r', lookup d' k = some r' ∧ f r' = f r := by
  intro d
  induction d with
  | nil =>
    intro d' _ k r hk
    simp [lookup] at hk
  | cons kv t ih =>
    intro d' h k r hk
    cases d' with
    | nil => simp [viewOf] at h
    | cons kv' t' =>
      simp only [viewOf, List.map_cons, List.cons.injEq, Prod.mk.injEq] at h
      obtain ⟨⟨hkk, hvv⟩, ht⟩ := h
      by_cases he : kv.1 = k
      · simp only [lookup, he, if_true] at hk
        cases hk
        exact ⟨kv'.2, by simp [lookup, hkk ▸ he], hvv.symm⟩
      · simp only [lookup, he, if_false] at hk
        have := ih ht hk
        simpa [lookup, hkk ▸ he] using this

theorem viewOf_setKey {β : Type} (f : ActRec → β) :
    ∀ {d : AList} {k : String} {r : ActRec}, lookup d k = some r →
      ∀ {r' : ActRec}, f r' = f r → viewOf f (setKey d k r') = viewOf f d := by
  intro d
  induction d with
  | nil =>
    intro k r hk
    simp [lookup] at hk
  | cons kv t ih =>
    intro k r hk r' hf
    obtain ⟨k1, r1⟩ := kv
    by_cases he : k1 = k
    · subst he
      simp only [lookup, if_pos rfl] at hk
      cases hk
      simp [setKey, viewOf, hf]
    · simp only [lookup, he, if_false] at hk
      simp only [setKey, he, if_false, viewOf, List.map_cons, List.cons.injEq]
      exact ⟨trivial, ih hk hf⟩

/-! ### Inversion and preservation lemmas for `foldSteps` -/

theorem foldSteps_cons_inv {g : AList → String → Except PyError AList}
    {d d' : AList} {k : String} {ks : List String}
    (h : foldSteps g d (k :: ks) = .ok d') :
    ∃ dm, g d k = .ok dm ∧ foldSteps g dm ks = .ok d' := by
  unfold foldSteps at h
  cases hg : g d k with
  | error e => rw [hg] at h; exact absurd h (by simp)
  | ok dm => rw [hg] at h; exact ⟨dm, rfl, h⟩

theorem foldSteps_append {g : AList → String → Except PyError AList} :
    ∀ (l₁ l₂ : List String) (d d' : AList),
      foldSteps g d (l₁ ++ l₂) = .ok d' →
      ∃ dm, foldSteps g d l₁ = .ok dm ∧ foldSteps g dm l₂ = .ok d' := by
  intro l₁
  induction l₁ with
  | nil =>
    intro l₂ d d' h
    exact ⟨d, rfl, h⟩
  | cons k ks ih =>
    intro l₂ d d' h
    obtain ⟨dm, hk, hrest⟩ := foldSteps_cons_inv h
    obtain ⟨dm', h1, h2⟩ := ih l₂ dm d' hrest
    refine ⟨dm', ?_, h2⟩
    unfold foldSteps
    rw [hk]
    exact h1

theorem foldSteps_view {β : Type} (f : ActRec → β)
    {g : AList → String → Except PyError AList}
    (hg : ∀ d k d', g d k = .ok d' → viewOf f d' = viewOf f d) :
    ∀ (ks : List String) (d d' : AList),
      foldSteps g d ks = .ok d' → viewOf f d' = viewOf f d := by
  intro ks
  induction ks with
  | nil =>
    intro d d' h
    cases h
    rfl
  | cons k ks ih =>
    intro d d' h
    obtain ⟨dm, hk, hrest⟩ := foldSteps_cons_inv h
    exact (ih dm d' hrest).trans (hg d k dm hk)

/-! ### Frame lemmas for the individual steps -/

theorem forwardStep_lslf {d d' : AList} {a : String}
    (h : forwardStep d a = .ok d') : viewOf lslfF d' = viewOf lslfF d := by
  cases hl : lookup d a with
  | none => simp [forwardStep, hl] at h
  | some r =>
    simp only [forwardStep, hl] at h
    by_cases hp : r.predecessors = []
    · rw [if_pos hp] at h
      cases h
      exact viewOf_setKey lslfF hl rfl
    · rw [if_neg hp] at h
      cases hefs : predEFs d r.predecessors with
      | error e => rw [hefs] at h; exact absurd h (by simp)
      | ok efs =>
        rw [hefs] at h
        cases h
        exact viewOf_setKey lslfF hl rfl

theorem tightenStep_esef {d d' : AList} {a p : String}
    (h : tightenStep a d p = .ok d') : viewOf esefF d' = viewOf esefF d := by
  cases hl : lookup d p with
  | none => simp [tightenStep, hl] at h
  | some pr =>
    cases ha : lookup d a with
    | none => simp [tightenStep, hl, ha] at h
    | some ar =>
      simp only [tightenStep, hl, ha, Except.ok.injEq] at h
      subst h
      exact viewOf_setKey esefF hl rfl

theorem backwardStep_esef {d d' : AList} {a : String}
    (h : backwardStep d a = .ok d') : viewOf esefF d' = viewOf esefF d := by
  cases hl : lookup d a with
  | none => simp [backwardStep, hl] at h
  | some r =>
    simp only [backwardStep, hl] at h
    cases hlf : r.latest_finish with
    | none =>
      rw [hlf] at h
      have hfold := foldSteps_view esefF (fun _ _ _ hk => tightenStep_esef hk) _ _ _ h
      exact hfold.trans (viewOf_setKey esefF hl rfl)
    | some v =>
      rw [hlf] at h
      have hfold := foldSteps_view esefF (fun _ _ _ hk => tightenStep_esef hk) _ _ _ h
      exact hfold.trans (viewOf_setKey esefF hl rfl)

theorem forwardPass_lslf {d d' : AList} (h : forwardPass d = .ok d') :
    viewOf lslfF d' = viewOf lslfF d :=
  foldSteps_view lslfF (fun _ _ _ hk => forwardStep_lslf hk) _ _ _ h

theorem backwardPass_esef {d d' : AList} (h : backwardPass d = .ok d') :
    viewOf esefF d' = viewOf esefF d :=
  foldSteps_view esefF (fun _ _ _ hk => backwardStep_esef hk) _ _ _ h

/-! ### Inversion lemmas: what each step actually does -/

/-- The value lines 33–34 of `app.py` leave in `latest_finish`: the
activity's own `earliest_finish` when the sentinel is still in place,
otherwise the current value. -/
def anchorLF (r : ActRec) : Int :=
  match r.latest_finish with
  | none => r.earliest_finish
  | some v => v

theorem forwardStep_inv {d d' : AList} {a : String}
    (h : forwardStep d a = .ok d') :
    ∃ r, lookup d a = some r ∧
      ((r.predecessors = [] ∧
        d' = setKey d a { r with earliest_start := 0, earliest_finish := r.duration }) ∨
       (r.predecessors ≠ [] ∧ ∃ efs, predEFs d r.predecessors = .ok efs ∧
        d' = setKey d a
          { r with
            earliest_start := maxList efs
            earliest_finish := maxList efs + r.duration })) := by
  cases hl : lookup d a with
  | none => simp [forwardStep, hl] at h
  | some r =>
    simp only [forwardStep, hl] at h
    refine ⟨r, rfl, ?_⟩
    by_cases hp : r.predecessors = []
    · rw [if_pos hp] at h
      cases h
      exact Or.inl ⟨hp, rfl⟩
    · rw [if_neg hp] at h
      cases hefs : predEFs d r.predecessors with
      | error e => rw [hefs] at h; exact absurd h (by simp)
      | ok efs =>
        rw [hefs] at h
        cases h
        exact Or.inr ⟨hp, efs, rfl, rfl⟩

theorem tightenStep_inv {d d' : AList} {a p : String}
    (h : tightenStep a d p = .ok d') :
    ∃ pr ar, lookup d p = some pr ∧ lookup d a = some ar ∧
      d' = setKey d p
        { pr with
          latest_finish := eMin pr.latest_finish ar.latest_start
          latest_start := eSub (eMin pr.latest_finish ar.latest_start) pr.duration } := by
  cases hl : lookup d p with
  | none => simp [tightenStep, hl] at h
  | some pr =>
    cases ha : lookup d a with
    | none => simp [tightenStep, hl, ha] at h
    | some ar =>
      simp only [tightenStep, hl, ha, Except.ok.injEq] at h
      exact ⟨pr, ar, rfl, rfl, h.symm⟩

theorem backwardStep_inv {d d' : AList} {a : String}
    (h : backwardStep d a = .ok d') :
    ∃ r, lookup d a = some r ∧
      foldSteps (tightenStep a)
        (setKey d a
          { r with
            latest_finish := some (anchorLF r)
            latest_start := some (anchorLF r - r.duration) })
        r.predecessors = .ok d' := by
  cases hl : lookup d a with
  | none => simp [backwardStep, hl] at h
  | some r =>
    simp only [backwardStep, hl] at h
    refine ⟨r, rfl, ?_⟩
    cases hlf : r.latest_finish with
    | none =>
      rw [hlf] at h
      simpa [anchorLF, hlf] using h
    | some v =>
      rw [hlf] at h
      simpa [anchorLF, hlf] using h

/-! ### Untouched-key frame lemmas -/

theorem forwardStep_lookup_ne {d d' : AList} {a : String}
    (h : forwardStep d a = .ok d') {k : String} (hk : k ≠ a) :
    lookup d' k = lookup d k := by
  obtain ⟨r, _, hcase⟩ := forwardStep_inv h
  rcases hcase with ⟨_, rfl⟩ | ⟨_, efs, _, rfl⟩ <;>
    exact lookup_setKey_ne _ hk

theorem tightenStep_lookup_ne {d d' : AList} {a p : String}
    (h : tightenStep a d p = .ok d') {k : String} (hk : k ≠ p) :
    lookup d' k = lookup d k := by
  obtain ⟨pr, ar, _, _, rfl⟩ := tightenStep_inv h
  exact lookup_setKey_ne _ hk

theorem tightenFold_lookup_ne {a : String} :
    ∀ (ps : List String) (d d' : AList),
      foldSteps (tightenStep a) d ps = .ok d' →
      ∀ k, k ∉ ps → lookup d' k = lookup d k := by
  intro ps
  induction ps with
  | nil =>
    intro d d' h k _
    cases h
    rfl
  | cons p ps ih =>
    intro d d' h k hk
    obtain ⟨dm, hp, hrest⟩ := foldSteps_cons_inv h
    have h1 : k ≠ p := fun he => hk (he ▸ List.mem_cons_self p ps)
    have h2 : k ∉ ps := fun hm => hk (List.mem_cons_of_mem p hm)
    exact (ih dm d' hrest k h2).trans (tightenStep_lookup_ne hp h1)

theorem backwardStep_lookup_ne {d d' : AList} {a : String}
    (h : backwardStep d a = .ok d') {k : String} (hk : k ≠ a)
    (hp : ∀ r, lookup d a = some r → k ∉ r.predecessors) :
    lookup d' k = lookup d k := by
  obtain ⟨r, hl, hfold⟩ := backwardStep_inv h
  have h1 := tightenFold_lookup_ne r.predecessors _ _ hfold k (hp r hl)
  rw [h1]
  exact lookup_setKey_ne _ hk

/-! ### Monotonicity of `latest_finish` during the backward pass -/

/-- The `latest_finish` stored at key `k` (`none` both for the infinity
sentinel and for an absent key, which no backward-pass statement ever
lowers). -/
def lfOf (d : AList) (k : String) : EInt :=
  match lookup d k with
  | none => none
  | some r => r.latest_finish

theorem lfOf_setKey_self {d : AList} {k : String} {r : ActRec}
    (h : lookup d k = some r) (r' : ActRec) :
    lfOf (setKey d k r') k = r'.latest_finish := by
  unfold lfOf
  rw [lookup_setKey_self (by simp [h]) r']

theorem lfOf_setKey_ne {d : AList} {k k' : String} (r : ActRec) (h : k' ≠ k) :
    lfOf (setKey d k r) k' = lfOf d k' := by
  unfold lfOf
  rw [lookup_setKey_ne r h]

theorem tightenStep_mono {d d' : AList} {a p : String}
    (h : tightenStep a d p = .ok d') (k : String) :
    eLEb (lfOf d' k) (lfOf d k) = true := by
  obtain ⟨pr, ar, hp, ha, rfl⟩ := tightenStep_inv h
  by_cases hk : k = p
  · subst hk
    rw [lfOf_setKey_self hp]
    have : lfOf d k = pr.latest_finish := by simp [lfOf, hp]
    rw [this]
    exact eLEb_eMin_left _ _
  · rw [lfOf_setKey_ne _ hk]
    exact eLEb_refl _

theorem tightenFold_mono {a : String} :
    ∀ (ps : List String) (d d' : AList),
      foldSteps (tightenStep a) d ps = .ok d' →
      ∀ k, eLEb (lfOf d' k) (lfOf d k) = true := by
  intro ps
  induction ps with
  | nil =>
    intro d d' h k
    cases h
    exact eLEb_refl _
  | cons p ps ih =>
    intro d d' h k
    obtain ⟨dm, hp, hrest⟩ := foldSteps_cons_inv h
    exact eLEb_trans (ih dm d' hrest k) (tightenStep_mono hp k)

theorem backwardStep_mono {d d' : AList} {a : String}
    (h : backwardStep d a = .ok d') (k : String) :
    eLEb (lfOf d' k) (lfOf d k) = true := by
  obtain ⟨r, hl, hfold⟩ := backwardStep_inv h
  refine eLEb_trans (tightenFold_mono r.predecessors _ _ hfold k) ?_
  by_cases hk : k = a
  · subst hk
    rw [lfOf_setKey_self hl]
    have h2 : lfOf d k = r.latest_finish := by simp [lfOf, hl]
    rw [h2]
    cases hlf : r.latest_finish with
    | none => simp [eLEb]
    | some v => simp [anchorLF, hlf, eLEb_refl]
  · rw [lfOf_setKey_ne _ hk]
    exact eLEb_refl _

theorem backFold_mono :
    ∀ (bs : List String) (d d' : AList),
      foldSteps backwardStep d bs = .ok d' →
      ∀ k, eLEb (lfOf d' k) (lfOf d k) = true := by
  intro bs
  induction bs with
  | nil =>
    intro d d' h k
    cases h
    exact eLEb_refl _
  | cons b bs ih =>
    intro d d' h k
    obtain ⟨dm, hb, hrest⟩ := foldSteps_cons_inv h
    exact eLEb_trans (ih dm d' hrest k) (backwardStep_mono hb k)

/-! ### Lookup through `dictInsert` and freshness of built records -/

theorem lookup_append (d₁ d₂ : AList) (k : String) :
    lookup (d₁ ++ d₂) k =
      match lookup d₁ k with
      | some r => some r
      | none => lookup d₂ k := by
  induction d₁ with
  | nil => simp [lookup]
  | cons kv t ih =>
    by_cases hk : kv.1 = k
    · simp [lookup, hk]
    · simp [lookup, hk, ih]

theorem lookup_dictInsert (d : AList) (k : String) (r : ActRec) (k' : String) :
    lookup (dictInsert d k r) k' = if k' = k then some r else lookup d k' := by
  unfold dictInsert
  split
  · rename_i hs
    by_cases hk : k' = k
    · subst hk
      rw [if_pos rfl, lookup_setKey_self hs]
    · rw [if_neg hk, lookup_setKey_ne r hk]
  · rename_i hs
    rw [lookup_append]
    by_cases hk : k' = k
    · subst hk
      cases hl : lookup d k' with
      | none => simp [lookup]
      | some r0 => exact absurd (by simp [hl]) hs
    · cases hl : lookup d k' with
      | none => simp [lookup, hk, Ne.symm hk]
      | some r0 => simp [hl, hk]

/-- Every record placed in the dict by the build loop starts with
`ES = EF = 0` and both latest fields at the infinity sentinel. -/
def freshRec (r : ActRec) : Prop :=
  r.earliest_start = 0 ∧ r.earliest_finish = 0 ∧
    r.latest_start = none ∧ r.latest_finish = none

theorem buildDict_fresh :
    ∀ (as ds ps : List String) (acc d : AList),
      buildDict acc as ds ps = .ok d →
      (∀ k r, lookup acc k = some r → freshRec r) →
      ∀ k r, lookup d k = some r → freshRec r := by
  intro as
  induction as with
  | nil =>
    intro ds ps acc d h hacc
    cases h
    exact hacc
  | cons a as ih =>
    intro ds ps acc d h hacc
    cases ds with
    | nil => simp [buildDict] at h
    | cons du dus =>
      unfold buildDict at h
      cases hpi : pythonInt du with
      | none => rw [hpi] at h; exact absurd h (by simp)
      | some n =>
        rw [hpi] at h
        cases ps with
        | nil => exact absurd h (by simp)
        | cons p ps' =>
          refine ih dus ps' _ d h ?_
          intro k r hk
          rw [lookup_dictInsert] at hk
          by_cases he : k = a
          · rw [if_pos he] at hk
            cases hk
            exact ⟨rfl, rfl, rfl, rfl⟩
          · rw [if_neg he] at hk
            exact hacc k r hk

/-! ### The forward pass establishes `EF = ES + duration` everywhere -/

theorem forwardFold_lookup_ne :
    ∀ (ks : List String) (d d' : AList),
      foldSteps forwardStep d ks = .ok d' →
      ∀ k, k ∉ ks → lookup d' k = lookup d k := by
  intro ks
  induction ks with
  | nil =>
    intro d d' h k _
    cases h
    rfl
  | cons a ks ih =>
    intro d d' h k hk
    obtain ⟨dm, ha, hrest⟩ := foldSteps_cons_inv h
    have h1 : k ≠ a := fun he => hk (he ▸ List.mem_cons_self a ks)
    have h2 : k ∉ ks := fun hm => hk (List.mem_cons_of_mem a hm)
    exact (ih dm d' hrest k h2).trans (forwardStep_lookup_ne ha h1)

theorem forwardStep_self_esef {d d' : AList} {a : String}
    (h : forwardStep d a = .ok d') :
    ∀ r', lookup d' a = some r' →
      r'.earliest_finish = r'.earliest_start + r'.duration := by
  intro r' hr'
  obtain ⟨r, hl, hcase⟩ := forwardStep_inv h
  rcases hcase with ⟨_, rfl⟩ | ⟨_, efs, _, rfl⟩ <;>
  · rw [lookup_setKey_self (by simp [hl]) _] at hr'
    cases hr'
    simp

theorem forwardFold_esef :
    ∀ (ks : List String) (d d' : AList),
      foldSteps forwardStep d ks = .ok d' →
      ∀ k ∈ ks, ∀ r, lookup d' k = some r →
        r.earliest_finish = r.earliest_start + r.duration := by
  intro ks
  induction ks with
  | nil =>
    intro d d' _ k hk
    simp at hk
  | cons a ks ih =>
    intro d d' h k hk r hr
    obtain ⟨dm, ha, hrest⟩ := foldSteps_cons_inv h
    by_cases hmem : k ∈ ks
    · exact ih dm d' hrest k hmem r hr
    · have hka : k = a := by
        rcases List.mem_cons.mp hk with he | hm
        · exact he
        · exact absurd hm hmem
      subst hka
      rw [forwardFold_lookup_ne ks dm d' hrest k hmem] at hr
      exact forwardStep_self_esef ha r hr

theorem forwardPass_esef {d d' : AList} (h : forwardPass d = .ok d') :
    ∀ k r, lookup d' k = some r →
      r.earliest_finish = r.earliest_start + r.duration := by
  intro k r hr
  have hkeys : keys d' = keys d := viewOf_keys lslfF (forwardPass_lslf h)
  have hmem : k ∈ keys d := by
    rw [← hkeys]
    exact (lookup_isSome_iff_mem_keys d' k).mp (by simp [hr])
  exact forwardFold_esef (keys d) d d' h k hmem r hr

/-! ### The backward pass keeps `LS = LF − duration` and resolves every
sentinel -/

/-- The invariant of lines 34–35 and 37–38 of `app.py`: the stored
`latest_start` is always the stored `latest_finish` minus the duration
(with `∞ − d = ∞` for records not yet reached). -/
def lsLinked (r : ActRec) : Prop :=
  r.latest_start = eSub r.latest_finish r.duration

theorem tightenStep_link {d d' : AList} {a p : String}
    (h : tightenStep a d p = .ok d')
    (hd : ∀ k r, lookup d k = some r → lsLinked r) :
    ∀ k r, lookup d' k = some r → lsLinked r := by
  intro k r hr
  obtain ⟨pr, ar, hp, ha, rfl⟩ := tightenStep_inv h
  by_cases hk : k = p
  · subst hk
    rw [lookup_setKey_self (by simp [hp]) _] at hr
    cases hr
    simp [lsLinked]
  · rw [lookup_setKey_ne _ hk] at hr
    exact hd k r hr

theorem tightenFold_link {a : String} :
    ∀ (ps : List String) (d d' : AList),
      foldSteps (tightenStep a) d ps = .ok d' →
      (∀ k r, lookup d k = some r → lsLinked r) →
      ∀ k r, lookup d' k = some r → lsLinked r := by
  intro ps
  induction ps with
  | nil =>
    intro d d' h hd
    cases h
    exact hd
  | cons p ps ih =>
    intro d d' h hd
    obtain ⟨dm, hp, hrest⟩ := foldSteps_cons_inv h
    exact ih dm d' hrest (tightenStep_link hp hd)

theorem backwardStep_link {d d' : AList} {a : String}
    (h : backwardStep d a = .ok d')
    (hd : ∀ k r, lookup d k = some r → lsLinked r) :
    ∀ k r, lookup d' k = some r → lsLinked r := by
  obtain ⟨r, hl, hfold⟩ := backwardStep_inv h
  refine tightenFold_link r.predecessors _ _ hfold ?_
  intro k r0 hr0
  by_cases hk : k = a
  · subst hk
    rw [lookup_setKey_self (by simp [hl]) _] at hr0
    cases hr0
    simp [lsLinked, eSub]
  · rw [lookup_setKey_ne _ hk] at hr0
    exact hd k r0 hr0

theorem backFold_link :
    ∀ (bs : List String) (d d' : AList),
      foldSteps backwardStep d bs = .ok d' →
      (∀ k r, lookup d k = some r → lsLinked r) →
      ∀ k r, lookup d' k = some r → lsLinked r := by
  intro bs
  induction bs with
  | nil =>
    intro d d' h hd
    cases h
    exact hd
  | cons b bs ih =>
    intro d d' h hd
    obtain ⟨dm, hb, hrest⟩ := foldSteps_cons_inv h
    exact ih dm d' hrest (backwardStep_link hb hd)

theorem tightenStep_isSome {d d' : AList} {a p : String}
    (h : tightenStep a d p = .ok d') {k : String}
    (hk : (lfOf d k).isSome = true) : (lfOf d' k).isSome = true := by
  obtain ⟨pr, ar, hp, ha, rfl⟩ := tightenStep_inv h
  by_cases he : k = p
  · subst he
    rw [lfOf_setKey_self hp]
    have : lfOf d k = pr.latest_finish := by simp [lfOf, hp]
    rw [this] at hk
    exact eMin_isSome_left _ hk
  · rwa [lfOf_setKey_ne _ he]

theorem tightenFold_isSome {a : String} :
    ∀ (ps : List String) (d d' : AList),
      foldSteps (tightenStep a) d ps = .ok d' →
      ∀ k, (lfOf d k).isSome = true → (lfOf d' k).isSome = true := by
  intro ps
  induction ps with
  | nil =>
    intro d d' h k hk
    cases h
    exact hk
  | cons p ps ih =>
    intro d d' h k hk
    obtain ⟨dm, hp, hrest⟩ := foldSteps_cons_inv h
    exact ih dm d' hrest k (tightenStep_isSome hp hk)

theorem backwardStep_isSome {d d' : AList} {a : String}
    (h : backwardStep d a = .ok d') {k : String}
    (hk : (lfOf d k).isSome = true) : (lfOf d' k).isSome = true := by
  obtain ⟨r, hl, hfold⟩ := backwardStep_inv h
  refine tightenFold_isSome r.predecessors _ _ hfold k ?_
  by_cases he : k = a
  · subst he
    rw [lfOf_setKey_self hl]
    rfl
  · rwa [lfOf_setKey_ne _ he]

theorem backwardStep_self_isSome {d d' : AList} {a : String}
    (h : backwardStep d a = .ok d') : (lfOf d' a).isSome = true := by
  obtain ⟨r, hl, hfold⟩ := backwardStep_inv h
  refine tightenFold_isSome r.predecessors _ _ hfold a ?_
  rw [lfOf_setKey_self hl]
  rfl

theorem backFold_isSome :
    ∀ (bs : List String) (d d' : AList),
      foldSteps backwardStep d bs = .ok d' →
      ∀ k, (lfOf d k).isSome = true → (lfOf d' k).isSome = true := by
  intro bs
  induction bs with
  | nil =>
    intro d d' h k hk
    cases h
    exact hk
  | cons b bs ih =>
    intro d d' h k hk
    obtain ⟨dm, hb, hrest⟩ := foldSteps_cons_inv h
    exact ih dm d' hrest k (backwardStep_isSome hb hk)

theorem backFold_visited_isSome :
    ∀ (bs : List String) (d d' : AList),
      foldSteps backwardStep d bs = .ok d' →
      ∀ k ∈ bs, (lfOf d' k).isSome = true := by
  intro bs
  induction bs with
  | nil =>
    intro d d' _ k hk
    simp at hk
  | cons b bs ih =>
    intro d d' h k hk
    obtain ⟨dm, hb, hrest⟩ := foldSteps_cons_inv h
    by_cases hmem : k ∈ bs
    · exact ih dm d' hrest k hmem
    · have hkb : k = b := by
        rcases List.mem_cons.mp hk with he | hm
        · exact he
        · exact absurd hm hmem
      subst hkb
      exact backFold_isSome bs dm d' hrest k (backwardStep_self_isSome hb)

/-! ### The topological-order precondition and the forward-pass
specification -/

/-- All predecessors that `d` records for `a` lie in the list `pre`. -/
def predsIn (d : AList) (a : String) (pre : List String) : Bool :=
  match lookup d a with
  | none => true
  | some r => r.predecessors.all (fun p => decide (p ∈ pre))

/-- `topoOrd d pre suf = true` states that, scanning `suf` from the front
with `pre` already visited, every activity's predecessors occur strictly
earlier.  `topoOrd d [] (keys d)` is the spec's precondition that the
insertion order is a valid topological order of the predecessor graph (it
also forces every referenced predecessor to exist among the keys). -/
def topoOrd (d : AList) : List String → List String → Bool
  | _, [] => true
  | pre, a :: suf => predsIn d a pre && topoOrd d (pre ++ [a]) suf

/-- The `earliest_finish` recorded for `p` (`0` for an absent key; the
theorems below only use it where the key is proved present). -/
def efOf (d : AList) (p : String) : Int :=
  match lookup d p with
  | none => 0
  | some r => r.earliest_finish

/-- What the forward pass promises for the record of `k`: the two branches
of lines 22–28 of `app.py`, with predecessor `earliest_finish` values read
back from the same mapping. -/
def ForwardSpec (d : AList) (k : String) : Prop :=
  ∀ r, lookup d k = some r →
    (r.predecessors = [] → r.earliest_start = 0 ∧ r.earliest_finish = r.duration) ∧
    (r.predecessors ≠ [] →
      (∀ p ∈ r.predecessors, (lookup d p).isSome = true) ∧
      r.earliest_start = maxList (r.predecessors.map (efOf d)) ∧
      r.earliest_finish = r.earliest_start + r.duration)

theorem skel_of_lslf {d d' : AList}
    (h : viewOf lslfF d' = viewOf lslfF d) :
    viewOf skelF d' = viewOf skelF d := by
  have h1 : ∀ e : AList,
      viewOf skelF e = (viewOf lslfF e).map (fun x => (x.1, (x.2.1, x.2.2.1))) := by
    intro e
    simp [viewOf, skelF, lslfF, List.map_map]
  rw [h1, h1, h]

theorem skel_of_esef {d d' : AList}
    (h : viewOf esefF d' = viewOf esefF d) :
    viewOf skelF d' = viewOf skelF d := by
  have h1 : ∀ e : AList,
      viewOf skelF e = (viewOf esefF e).map (fun x => (x.1, (x.2.1, x.2.2.1))) := by
    intro e
    simp [viewOf, skelF, esefF, List.map_map]
  rw [h1, h1, h]

theorem predEFs_ok_isSome {d : AList} :
    ∀ (ps : List String) (efs : List Int), predEFs d ps = .ok efs →
      ∀ p ∈ ps, (lookup d p).isSome = true := by
  intro ps
  induction ps with
  | nil =>
    intro efs _ p hp
    simp at hp
  | cons q qs ih =>
    intro efs h p hp
    unfold predEFs at h
    cases hl : lookup d q with
    | none => rw [hl] at h; exact absurd h (by simp)
    | some r =>
      rw [hl] at h
      cases hrest : predEFs d qs with
      | error e => rw [hrest] at h; exact absurd h (by simp)
      | ok xs =>
        rw [hrest] at h
        rcases List.mem_cons.mp hp with he | hm
        · subst he
          simp [hl]
        · exact ih xs hrest p hm

theorem predEFs_ok_eq_map {d : AList} :
    ∀ (ps : List String) (efs : List Int), predEFs d ps = .ok efs →
      efs = ps.map (efOf d) := by
  intro ps
  induction ps with
  | nil =>
    intro efs h
    cases h
    rfl
  | cons q qs ih =>
    intro efs h
    unfold predEFs at h
    cases hl : lookup d q with
    | none => rw [hl] at h; exact absurd h (by simp)
    | some r =>
      rw [hl] at h
      cases hrest : predEFs d qs with
      | error e => rw [hrest] at h; exact absurd h (by simp)
      | ok xs =>
        rw [hrest] at h
        cases h
        simp [efOf, hl, ih xs hrest]

theorem foldl_max_le : ∀ (ys : List Int) (acc : Int), acc ≤ ys.foldl max acc := by
  intro ys
  induction ys with
  | nil => intro acc; exact le_refl acc
  | cons y ys ih =>
    intro acc
    exact le_trans (le_max_left acc y) (ih (max acc y))

theorem maxList_ge : ∀ (xs : List Int), ∀ x ∈ xs, x ≤ maxList xs := by
  intro xs
  cases xs with
  | nil => intro x hx; simp at hx
  | cons y ys =>
    intro x hx
    unfold maxList
    induction ys generalizing y with
    | nil =>
      simp at hx
      subst hx
      exact le_refl x
    | cons z zs ih =>
      rcases List.mem_cons.mp hx with he | hm
      · subst he
        exact le_trans (le_max_left x z) (foldl_max_le zs (max x z))
      · rcases List.mem_cons.mp hm with he2 | hm2
        · subst he2
          exact le_trans (le_max_right y x) (foldl_max_le zs (max y x))
        · exact ih (max y z) (List.mem_cons_of_mem _ hm2)

theorem predsIn_mono {d : AList} {a : String} {pre pre' : List String}
    (h : predsIn d a pre = true) (hsub : ∀ x ∈ pre, x ∈ pre') :
    predsIn d a pre' = true := by
  unfold predsIn at h ⊢
  cases hl : lookup d a with
  | none => rfl
  | some r =>
    rw [hl] at h
    simp only [List.all_eq_true, decide_eq_true_eq] at h ⊢
    exact fun p hp => hsub p (h p hp)

theorem ForwardSpec_transfer {d d' : AList} {k : String}
    (hs : ForwardSpec d k) (hk : lookup d' k = lookup d k)
    (hp : ∀ r, lookup d k = some r → ∀ p ∈ r.predecessors,
      lookup d' p = lookup d p) :
    ForwardSpec d' k := by
  intro r hr
  rw [hk] at hr
  have h0 := hs r hr
  refine ⟨h0.1, fun hne => ?_⟩
  obtain ⟨hsome, hes, hef⟩ := h0.2 hne
  refine ⟨?_, ?_, hef⟩
  · intro p hpm
    rw [hp r hr p hpm]
    exact hsome p hpm
  · rw [hes]
    congr 1
    refine List.map_congr_left ?_
    intro p hpm
    unfold efOf
    rw [hp r hr p hpm]

theorem forwardStep_establishes {d dm : AList} {a : String}
    (hstep : forwardStep d a = .ok dm)
    (hpna : ∀ r, lookup d a = some r → ∀ p ∈ r.predecessors, p ≠ a) :
    ForwardSpec dm a := by
  obtain ⟨r, hla, hcase⟩ := forwardStep_inv hstep
  rcases hcase with ⟨hnil, hdm⟩ | ⟨hne, efs, hefs, hdm⟩
  · subst hdm
    intro r' hr'
    rw [lookup_setKey_self (by simp [hla]) _] at hr'
    cases hr'
    exact ⟨fun _ => ⟨rfl, rfl⟩, fun hc => absurd hnil hc⟩
  · subst hdm
    intro r' hr'
    rw [lookup_setKey_self (by simp [hla]) _] at hr'
    cases hr'
    refine ⟨fun hc => absurd hc hne, fun _ => ?_⟩
    have hmap := predEFs_ok_eq_map _ _ hefs
    have hsome := predEFs_ok_isSome _ _ hefs
    refine ⟨?_, ?_, rfl⟩
    · intro p hp
      rw [lookup_setKey_ne _ (hpna r hla p hp)]
      exact hsome p hp
    · show maxList efs = _
      congr 1
      rw [hmap]
      refine List.map_congr_left ?_
      intro p hp
      unfold efOf
      rw [lookup_setKey_ne _ (hpna r hla p hp)]

theorem forwardFold_spec (d0 : AList) :
    ∀ (suf pre : List String) (d d1 : AList),
      (pre ++ suf).Nodup →
      viewOf skelF d = viewOf skelF d0 →
      topoOrd d0 pre suf = true →
      (∀ k ∈ pre, predsIn d0 k pre = true) →
      (∀ k ∈ pre, ForwardSpec d k) →
      foldSteps forwardStep d suf = .ok d1 →
      ∀ k ∈ pre ++ suf, ForwardSpec d1 k := by
  intro suf
  induction suf with
  | nil =>
    intro pre d d1 _ _ _ _ hpre hfold k hk
    cases hfold
    simp only [List.append_nil] at hk
    exact hpre k hk
  | cons a suf ih =>
    intro pre d d1 hnd hskel htopo hclosed hpre hfold k hk
    obtain ⟨dm, hstep, hrest⟩ := foldSteps_cons_inv hfold
    simp only [topoOrd, Bool.and_eq_true] at htopo
    obtain ⟨hpin, htopo'⟩ := htopo
    have hanp : a ∉ pre := by
      rcases List.nodup_append.mp hnd with ⟨_, _, hdisj⟩
      intro hmem
      exact hdisj hmem (List.mem_cons_self a suf)
    -- predecessors recorded for any key live where `predsIn d0` says
    have hpreds_of : ∀ (b : String) (rb : ActRec) (S : List String),
        lookup d b = some rb → predsIn d0 b S = true →
        ∀ p ∈ rb.predecessors, p ∈ S := by
      intro b rb S hlb hbin p hp
      obtain ⟨r0, hl0, hsk⟩ := viewOf_lookup_some skelF hskel hlb
      have hpe : r0.predecessors = rb.predecessors := congrArg Prod.snd hsk
      unfold predsIn at hbin
      rw [hl0] at hbin
      simp only [List.all_eq_true, decide_eq_true_eq] at hbin
      exact hbin p (hpe ▸ hp)
    have hskm : viewOf skelF dm = viewOf skelF d0 :=
      (skel_of_lslf (forwardStep_lslf hstep)).trans hskel
    have hspec_a : ForwardSpec dm a := by
      refine forwardStep_establishes hstep ?_
      intro r hr p hp he
      exact hanp (he ▸ hpreds_of a r pre hr hpin p hp)
    have happ : pre ++ a :: suf = (pre ++ [a]) ++ suf := by simp
    have hsub : ∀ x ∈ pre, x ∈ pre ++ [a] := fun x hx => List.mem_append_left _ hx
    have hres := ih (pre ++ [a]) dm d1
      (by rw [← happ]; exact hnd)
      hskm htopo'
      (by
        intro b hb
        rcases List.mem_append.mp hb with hbp | hba
        · exact predsIn_mono (hclosed b hbp) hsub
        · have : b = a := by simpa using hba
          subst this
          exact predsIn_mono hpin hsub)
      (by
        intro b hb
        rcases List.mem_append.mp hb with hbp | hba
        · have hba' : b ≠ a := fun he => hanp (he ▸ hbp)
          refine ForwardSpec_transfer (hpre b hbp) (forwardStep_lookup_ne hstep hba') ?_
          intro rb hlb p hp
          have hppre := hpreds_of b rb pre hlb (hclosed b hbp) p hp
          exact forwardStep_lookup_ne hstep (fun he => hanp (he ▸ hppre))
        · have : b = a := by simpa using hba
          subst this
          exact hspec_a)
      hrest
    intro r hr
    rw [happ] at hk
    exact hres k hk r hr

/-- The forward pass, run under the topological-order precondition,
computes the spec's `ES`/`EF` equations for every activity. -/
theorem forwardPass_spec {d0 d1 : AList}
    (hnd : (keys d0).Nodup)
    (htopo : topoOrd d0 [] (keys d0) = true)
    (h : forwardPass d0 = .ok d1) :
    ∀ k, ForwardSpec d1 k := by
  intro k
  by_cases hmem : k ∈ keys d0
  · exact forwardFold_spec d0 (keys d0) [] d0 d1 (by simpa using hnd) rfl htopo
      (by simp) (by simp) h k (by simpa using hmem)
  · intro r hr
    have hkeys : keys d1 = keys d0 := viewOf_keys lslfF (forwardPass_lslf h)
    have : k ∈ keys d1 := (lookup_isSome_iff_mem_keys d1 k).mp (by simp [hr])
    rw [hkeys] at this
    exact absurd this hmem

/-! ### Inverting the `calculate_cpm` pipeline -/

theorem calculate_cpm_inv {as ds ps cp : List String} {d2 : AList}
    (h : calculate_cpm as ds ps = .ok (cp, d2)) :
    ∃ d0 d1, buildDict [] as ds ps = .ok d0 ∧ forwardPass d0 = .ok d1 ∧
      backwardPass d1 = .ok d2 ∧ cp = criticalPath d2 := by
  unfold calculate_cpm at h
  cases hb : buildDict [] as ds ps with
  | error e => simp only [hb] at h; exact absurd h (by simp)
  | ok d0 =>
    simp only [hb] at h
    cases hf : forwardPass d0 with
    | error e => simp only [hf] at h; exact absurd h (by simp)
    | ok d1 =>
      simp only [hf] at h
      cases hbk : backwardPass d1 with
      | error e => simp only [hbk] at h; exact absurd h (by simp)
      | ok d2' =>
        simp only [hbk, Except.ok.injEq, Prod.mk.injEq] at h
        obtain ⟨hcp, hd⟩ := h
        subst hd
        exact ⟨d0, d1, rfl, hf, hbk, hcp.symm⟩

theorem esef_fields_eq {r r' : ActRec} (h : esefF r' = esefF r) :
    r'.duration = r.duration ∧ r'.predecessors = r.predecessors ∧
      r'.earliest_start = r.earliest_start ∧
      r'.earliest_finish = r.earliest_finish := by
  simpa [esefF, Prod.mk.injEq] using h

theorem lslf_fields_eq {r r' : ActRec} (h : lslfF r' = lslfF r) :
    r'.duration = r.duration ∧ r'.predecessors = r.predecessors ∧
      r'.latest_start = r.latest_start ∧
      r'.latest_finish = r.latest_finish := by
  simpa [lslfF, Prod.mk.injEq] using h

/-- C2 — invariants: after both passes complete, every activity in the
returned mapping satisfies `EF = ES + duration` and `LS = LF − duration`
(with `LF` a resolved, finite value). -/
theorem c2_schedule_invariants {as ds ps cp : List String} {d : AList}
    (h : calculate_cpm as ds ps = .ok (cp, d)) :
    ∀ k r, lookup d k = some r →
      r.earliest_finish = r.earliest_start + r.duration ∧
      ∃ lf, r.latest_finish = some lf ∧
        r.latest_start = some (lf - r.duration) := by
  obtain ⟨d0, d1, hb, hf, hbk, _⟩ := calculate_cpm_inv h
  unfold backwardPass at hbk
  intro k r hr
  constructor
  · obtain ⟨r1, hr1, hfe⟩ :=
      viewOf_lookup_some esefF (foldSteps_view esefF
        (fun _ _ _ hs => backwardStep_esef hs) _ _ _ hbk) hr
    obtain ⟨hdur, _, hes, hef⟩ := esef_fields_eq hfe
    have h1 := forwardPass_esef hf k r1 hr1
    rw [← hef, ← hes, ← hdur]
    exact h1
  · have hfresh : ∀ k r, lookup d0 k = some r → freshRec r :=
      buildDict_fresh _ _ _ _ _ hb (by intro k r hl; simp [lookup] at hl)
    have hlinked0 : ∀ k r, lookup d0 k = some r → lsLinked r := by
      intro k0 r0 hl
      obtain ⟨_, _, hls, hlf⟩ := hfresh k0 r0 hl
      simp [lsLinked, hls, hlf, eSub]
    have hlinked1 : ∀ k r, lookup d1 k = some r → lsLinked r := by
      intro k1 r1 hl
      obtain ⟨r0, hl0, hfe⟩ := viewOf_lookup_some lslfF (forwardPass_lslf hf) hl
      obtain ⟨hdur, _, hls, hlf⟩ := lslf_fields_eq hfe
      have h0 := hlinked0 k1 r0 hl0
      unfold lsLinked at h0 ⊢
      rw [← hls, ← hlf, ← hdur]
      exact h0
    have hlinked2 := backFold_link _ _ _ hbk hlinked1
    have hkeys21 : keys d = keys d1 :=
      viewOf_keys esefF (foldSteps_view esefF
        (fun _ _ _ hs => backwardStep_esef hs) _ _ _ hbk)
    have hmem : k ∈ (keys d1).reverse := by
      rw [List.mem_reverse, ← hkeys21]
      exact (lookup_isSome_iff_mem_keys d k).mp (by simp [hr])
    have hsome := backFold_visited_isSome _ _ _ hbk k hmem
    have hlf_eq : lfOf d k = r.latest_finish := by simp [lfOf, hr]
    rw [hlf_eq] at hsome
    obtain ⟨lf, hlf⟩ := Option.isSome_iff_exists.mp hsome
    have hlink := hlinked2 k r hr
    unfold lsLinked at hlink
    exact ⟨lf, hlf, by rw [hlink, hlf]; rfl⟩

/-! ### Critical-path membership -/

theorem isCritical_iff (r : ActRec) :
    isCritical r = true ↔ r.latest_start = some r.earliest_start := by
  unfold isCritical
  cases h : r.latest_start with
  | none => simp [h]
  | some ls => simp [h, eq_comm]

theorem criticalPath_sublist (d : AList) : (criticalPath d).Sublist (keys d) :=
  List.Sublist.map Prod.fst (List.filter_sublist d)

theorem criticalPath_mem_iff {d : AList} (hnd : (keys d).Nodup) (k : String) :
    k ∈ criticalPath d ↔
      ∃ r, lookup d k = some r ∧ r.latest_start = some r.earliest_start := by
  unfold criticalPath
  constructor
  · intro hk
    obtain ⟨kv, hkv, hke⟩ := List.mem_map.mp hk
    obtain ⟨hmem, hq⟩ := List.mem_filter.mp hkv
    subst hke
    refine ⟨kv.2, mem_lookup_of_nodup hnd ?_, (isCritical_iff kv.2).mp hq⟩
    exact hmem
  · intro ⟨r, hr, hcrit⟩
    refine List.mem_map.mpr ⟨(k, r), List.mem_filter.mpr ⟨lookup_mem d k hr, ?_⟩, rfl⟩
    exact (isCritical_iff r).mpr hcrit

theorem calculate_cpm_keys_nodup {as ds ps cp : List String} {d : AList}
    (h : calculate_cpm as ds ps = .ok (cp, d)) : (keys d).Nodup := by
  obtain ⟨d0, d1, hb, hf, hbk, _⟩ := calculate_cpm_inv h
  unfold backwardPass at hbk
  have h0 : (keys d0).Nodup := buildDict_nodup as ds ps [] d0 (by simp [keys]) hb
  have h10 : keys d1 = keys d0 := viewOf_keys lslfF (forwardPass_lslf hf)
  have h21 : keys d = keys d1 :=
    viewOf_keys esefF (foldSteps_view esefF
      (fun _ _ _ hs => backwardStep_esef hs) _ _ _ hbk)
  rw [h21, h10]
  exact h0

/-! ### Claim theorems (first group) -/

/-- C1 — functional correctness of the forward pass: visiting activities in
insertion order, under the precondition that the insertion order is a valid
topological order of the predecessor graph (and hence every referenced
predecessor exists), gives each activity without predecessors `ES = 0`,
`EF = duration`, and each activity with predecessors
`ES = max (EF of its predecessors)`, `EF = ES + duration`. -/
theorem c1_forward_pass (d0 d1 : AList)
    (hnd : (keys d0).Nodup)
    (htopo : topoOrd d0 [] (keys d0) = true)
    (h : forwardPass d0 = .ok d1) :
    ∀ k r, lookup d1 k = some r →
      (r.predecessors = [] →
        r.earliest_start = 0 ∧ r.earliest_finish = r.duration) ∧
      (r.predecessors ≠ [] →
        (∀ p ∈ r.predecessors, (lookup d1 p).isSome = true) ∧
        r.earliest_start = maxList (r.predecessors.map (efOf d1)) ∧
        r.earliest_finish = r.earliest_start + r.duration) :=
  fun k r hr => forwardPass_spec hnd htopo h k r hr

/-- Witness for C1 at the spec's Scenario C
(`A` dur 2, `B` dur 5, `C` dur 3 with predecessors `A,B`). -/
theorem c1_forward_pass_witness :
    ((keys [("A", (⟨2, [], 0, 0, none, none⟩ : ActRec)),
            ("B", ⟨5, [], 0, 0, none, none⟩),
            ("C", ⟨3, ["A", "B"], 0, 0, none, none⟩)]).Nodup ∧
     topoOrd [("A", (⟨2, [], 0, 0, none, none⟩ : ActRec)),
              ("B", ⟨5, [], 0, 0, none, none⟩),
              ("C", ⟨3, ["A", "B"], 0, 0, none, none⟩)] []
        (keys [("A", (⟨2, [], 0, 0, none, none⟩ : ActRec)),
               ("B", ⟨5, [], 0, 0, none, none⟩),
               ("C", ⟨3, ["A", "B"], 0, 0, none, none⟩)]) = true ∧
     forwardPass [("A", (⟨2, [], 0, 0, none, none⟩ : ActRec)),
                  ("B", ⟨5, [], 0, 0, none, none⟩),
                  ("C", ⟨3, ["A", "B"], 0, 0, none, none⟩)] =
       .ok [("A", ⟨2, [], 0, 2, none, none⟩),
            ("B", ⟨5, [], 0, 5, none, none⟩),
            ("C", ⟨3, ["A", "B"], 5, 8, none, none⟩)]) ∧
    (∀ k r,
      lookup [("A", (⟨2, [], 0, 2, none, none⟩ : ActRec)),
              ("B", ⟨5, [], 0, 5, none, none⟩),
              ("C", ⟨3, ["A", "B"], 5, 8, none, none⟩)] k = some r →
      (r.predecessors = [] →
        r.earliest_start = 0 ∧ r.earliest_finish = r.duration) ∧
      (r.predecessors ≠ [] →
        (∀ p ∈ r.predecessors,
          (lookup [("A", (⟨2, [], 0, 2, none, none⟩ : ActRec)),
                   ("B", ⟨5, [], 0, 5, none, none⟩),
                   ("C", ⟨3, ["A", "B"], 5, 8, none, none⟩)] p).isSome = true) ∧
        r.earliest_start =
          maxList (r.predecessors.map
            (efOf [("A", (⟨2, [], 0, 2, none, none⟩ : ActRec)),
                   ("B", ⟨5, [], 0, 5, none, none⟩),
                   ("C", ⟨3, ["A", "B"], 5, 8, none, none⟩)])) ∧
        r.earliest_finish = r.earliest_start + r.duration)) :=
  ⟨⟨by decide, by decide, by rfl⟩,
    c1_forward_pass
      [("A", ⟨2, [], 0, 0, none, none⟩),
       ("B", ⟨5, [], 0, 0, none, none⟩),
       ("C", ⟨3, ["A", "B"], 0, 0, none, none⟩)]
      [("A", ⟨2, [], 0, 2, none, none⟩),
       ("B", ⟨5, [], 0, 5, none, none⟩),
       ("C", ⟨3, ["A", "B"], 5, 8, none, none⟩)]
      (by decide) (by decide) (by rfl)⟩

/-- C4 — the critical-path collection contains exactly the activity names
whose `ES` equals `LS` (no other criterion), and it is a sublist of the key
list, i.e. it follows the insertion order of the activities. -/
theorem c4_critical_path {as ds ps cp : List String} {d : AList}
    (h : calculate_cpm as ds ps = .ok (cp, d)) :
    cp.Sublist (keys d) ∧
    ∀ k, k ∈ cp ↔
      ∃ r, lookup d k = some r ∧ r.latest_start = some r.earliest_start := by
  obtain ⟨d0, d1, hb, hf, hbk, hcp⟩ := calculate_cpm_inv h
  subst hcp
  exact ⟨criticalPath_sublist d,
    fun k => criticalPath_mem_iff (calculate_cpm_keys_nodup h) k⟩

/-- Witness for C4 at the spec's Scenario C. -/
theorem c4_critical_path_witness :
    calculate_cpm ["A", "B", "C"] ["2", "5", "3"] ["", "", "A,B"] =
      .ok (["B", "C"],
           [("A", ⟨2, [], 0, 2, some 3, some 5⟩),
            ("B", ⟨5, [], 0, 5, some 0, some 5⟩),
            ("C", ⟨3, ["A", "B"], 5, 8, some 5, some 8⟩)]) ∧
    ((["B", "C"] : List String).Sublist
        (keys [("A", (⟨2, [], 0, 2, some 3, some 5⟩ : ActRec)),
               ("B", ⟨5, [], 0, 5, some 0, some 5⟩),
               ("C", ⟨3, ["A", "B"], 5, 8, some 5, some 8⟩)]) ∧
      ∀ k, k ∈ (["B", "C"] : List String) ↔
        ∃ r, lookup [("A", (⟨2, [], 0, 2, some 3, some 5⟩ : ActRec)),
                     ("B", ⟨5, [], 0, 5, some 0, some 5⟩),
                     ("C", ⟨3, ["A", "B"], 5, 8, some 5, some 8⟩)] k = some r ∧
          r.latest_start = some r.earliest_start) :=
  ⟨by rfl,
    @c4_critical_path ["A", "B", "C"] ["2", "5", "3"] ["", "", "A,B"]
      ["B", "C"]
      [("A", ⟨2, [], 0, 2, some 3, some 5⟩),
       ("B", ⟨5, [], 0, 5, some 0, some 5⟩),
       ("C", ⟨3, ["A", "B"], 5, 8, some 5, some 8⟩)]
      (by rfl)⟩

/-- C5 — the spec's Scenario C end to end: `A` (dur 2, no preds), `B`
(dur 5, no preds), `C` (dur 3, preds `A,B`) give `A: ES=0, EF=2, LS=3`
(slack 3, `LF=5`), `B: ES=0, EF=5, LS=0`, `C: ES=5, EF=8`, and the critical
path is exactly `[B, C]`. -/
theorem c5_scenario_c :
    calculate_cpm ["A", "B", "C"] ["2", "5", "3"] ["", "", "A,B"] =
      .ok (["B", "C"],
           [("A", ⟨2, [], 0, 2, some 3, some 5⟩),
            ("B", ⟨5, [], 0, 5, some 0, some 5⟩),
            ("C", ⟨3, ["A", "B"], 5, 8, some 5, some 8⟩)]) := by
  rfl

/-- C6 — when the three input sequences differ in length, the request is
rejected with the mismatched-input error before any scheduling work, and no
schedule is produced. -/
theorem c6_mismatched_input (as ds ps : List String)
    (h : ¬(as.length = ds.length ∧ ds.length = ps.length)) :
    calculate as ds ps = .error .mismatchedInput := by
  unfold calculate
  rw [if_neg h]

/-- Witness for C6: the spec's Scenario D, sequences of length 3, 3 and 2. -/
theorem c6_mismatched_input_witness :
    (¬((["A", "B", "C"] : List String).length = (["1", "2", "3"] : List String).length ∧
       (["1", "2", "3"] : List String).length = (["", ""] : List String).length)) ∧
    calculate ["A", "B", "C"] ["1", "2", "3"] ["", ""] = .error .mismatchedInput :=
  ⟨by decide, c6_mismatched_input _ _ _ (by decide)⟩

/-- Witness for C2 at the spec's Scenario C. -/
theorem c2_schedule_invariants_witness :
    calculate_cpm ["A", "B", "C"] ["2", "5", "3"] ["", "", "A,B"] =
      .ok (["B", "C"],
           [("A", ⟨2, [], 0, 2, some 3, some 5⟩),
            ("B", ⟨5, [], 0, 5, some 0, some 5⟩),
            ("C", ⟨3, ["A", "B"], 5, 8, some 5, some 8⟩)]) ∧
    (∀ k r,
      lookup [("A", (⟨2, [], 0, 2, some 3, some 5⟩ : ActRec)),
              ("B", ⟨5, [], 0, 5, some 0, some 5⟩),
              ("C", ⟨3, ["A", "B"], 5, 8, some 5, some 8⟩)] k = some r →
      r.earliest_finish = r.earliest_start + r.duration ∧
      ∃ lf, r.latest_finish = some lf ∧
        r.latest_start = some (lf - r.duration)) :=
  ⟨by rfl,
    @c2_schedule_invariants ["A", "B", "C"] ["2", "5", "3"] ["", "", "A,B"]
      ["B", "C"]
      [("A", ⟨2, [], 0, 2, some 3, some 5⟩),
       ("B", ⟨5, [], 0, 5, some 0, some 5⟩),
       ("C", ⟨3, ["A", "B"], 5, 8, some 5, some 8⟩)]
      (by rfl)⟩

/-! ### C7: a missing predecessor makes the passes fail -/

theorem forwardStep_self_preds_present {d dm : AList} {a : String}
    (hstep : forwardStep d a = .ok dm) :
    ∀ r', lookup dm a = some r' → ∀ p ∈ r'.predecessors, p ∈ keys d := by
  intro r' hr' p hp
  obtain ⟨r, hla, hcase⟩ := forwardStep_inv hstep
  rcases hcase with ⟨hnil, hdm⟩ | ⟨_, efs, hefs, hdm⟩
  · subst hdm
    rw [lookup_setKey_self (by simp [hla]) _] at hr'
    cases hr'
    have hp' : p ∈ r.predecessors := hp
    rw [hnil] at hp'
    simp at hp'
  · subst hdm
    rw [lookup_setKey_self (by simp [hla]) _] at hr'
    cases hr'
    have hsome := predEFs_ok_isSome _ _ hefs p hp
    exact (lookup_isSome_iff_mem_keys d p).mp hsome

theorem forwardFold_preds_present :
    ∀ (ks : List String) (d d' : AList),
      foldSteps forwardStep d ks = .ok d' →
      ∀ k ∈ ks, ∀ r, lookup d' k = some r →
        ∀ p ∈ r.predecessors, p ∈ keys d' := by
  intro ks
  induction ks with
  | nil =>
    intro d d' _ k hk
    simp at hk
  | cons a ks ih =>
    intro d d' h k hk r hr p hp
    obtain ⟨dm, ha, hrest⟩ := foldSteps_cons_inv h
    by_cases hmem : k ∈ ks
    · exact ih dm d' hrest k hmem r hr p hp
    · have hka : k = a := by
        rcases List.mem_cons.mp hk with he | hm
        · exact he
        · exact absurd hm hmem
      subst hka
      rw [forwardFold_lookup_ne ks dm d' hrest k hmem] at hr
      have h1 : p ∈ keys d := forwardStep_self_preds_present ha r hr p hp
      have h2 : keys dm = keys d := viewOf_keys lslfF (forwardStep_lslf ha)
      have h3 : keys d' = keys dm :=
        viewOf_keys lslfF (foldSteps_view lslfF
          (fun _ _ _ hs => forwardStep_lslf hs) _ _ _ hrest)
      rw [h3, h2]
      exact h1

/-- C7 (amended) — when scheduling completes successfully, every
predecessor named by any activity is present in the mapping; equivalently,
a dangling predecessor name can never produce a completed schedule (the
run fails with a `KeyError`-style lookup fault — the source never raises
the spec's `DanglingPredecessorError`). -/
theorem c7_missing_predecessor_fails {as ds ps cp : List String} {d : AList}
    (h : calculate_cpm as ds ps = .ok (cp, d)) :
    ∀ k r, lookup d k = some r →
      ∀ p ∈ r.predecessors, (lookup d p).isSome = true := by
  obtain ⟨d0, d1, hb, hf, hbk, _⟩ := calculate_cpm_inv h
  unfold backwardPass at hbk
  intro k r hr p hp
  have hview : viewOf esefF d = viewOf esefF d1 :=
    foldSteps_view esefF (fun _ _ _ hs => backwardStep_esef hs) _ _ _ hbk
  obtain ⟨r1, hr1, hfe⟩ := viewOf_lookup_some esefF hview hr
  obtain ⟨_, hpe, _, _⟩ := esef_fields_eq hfe
  have hk1 : k ∈ keys d1 := (lookup_isSome_iff_mem_keys d1 k).mp (by simp [hr1])
  have h10 : keys d1 = keys d0 := viewOf_keys lslfF (forwardPass_lslf hf)
  have hp1 : p ∈ keys d1 :=
    forwardFold_preds_present (keys d0) d0 d1 hf k (h10 ▸ hk1) r1 hr1 p
      (hpe ▸ hp)
  have h21 : keys d = keys d1 := viewOf_keys esefF hview
  exact (lookup_isSome_iff_mem_keys d p).mpr (h21 ▸ hp1)

/-- Counterexample for C7 as stated: on the input whose only activity `A`
names the missing predecessor `X`, the code fails with a `KeyError` on
`"X"` raised inside the forward pass, not with the
`DanglingPredecessorError` the claim names. -/
theorem c7_counterexample :
    calculate_cpm ["A"] ["1"] ["X"] = .error (.keyError "X") ∧
    ¬ calculate_cpm ["A"] ["1"] ["X"] = .error (.danglingPredecessor "X") := by
  refine ⟨by rfl, ?_⟩
  intro hc
  rw [show calculate_cpm ["A"] ["1"] ["X"] =
    .error (.keyError "X") from rfl] at hc
  simp at hc

/-- Witness for C7 at the spec's Scenario C. -/
theorem c7_missing_predecessor_fails_witness :
    calculate_cpm ["A", "B", "C"] ["2", "5", "3"] ["", "", "A,B"] =
      .ok (["B", "C"],
           [("A", ⟨2, [], 0, 2, some 3, some 5⟩),
            ("B", ⟨5, [], 0, 5, some 0, some 5⟩),
            ("C", ⟨3, ["A", "B"], 5, 8, some 5, some 8⟩)]) ∧
    (∀ k r,
      lookup [("A", (⟨2, [], 0, 2, some 3, some 5⟩ : ActRec)),
              ("B", ⟨5, [], 0, 5, some 0, some 5⟩),
              ("C", ⟨3, ["A", "B"], 5, 8, some 5, some 8⟩)] k = some r →
      ∀ p ∈ r.predecessors,
        (lookup [("A", (⟨2, [], 0, 2, some 3, some 5⟩ : ActRec)),
                 ("B", ⟨5, [], 0, 5, some 0, some 5⟩),
                 ("C", ⟨3, ["A", "B"], 5, 8, some 5, some 8⟩)] p).isSome = true) :=
  ⟨by rfl,
    @c7_missing_predecessor_fails ["A", "B", "C"] ["2", "5", "3"]
      ["", "", "A,B"] ["B", "C"]
      [("A", ⟨2, [], 0, 2, some 3, some 5⟩),
       ("B", ⟨5, [], 0, 5, some 0, some 5⟩),
       ("C", ⟨3, ["A", "B"], 5, 8, some 5, some 8⟩)]
      (by rfl)⟩

/-! ### C8: duration parsing -/

/-- Does the computation abort with a `ValueError`-style parse failure? -/
def isValueError {α : Type} : Except PyError α → Bool
  | .error (.valueError _) => true
  | _ => false

theorem buildDict_bad_duration :
    ∀ (as ds ps : List String) (acc : AList),
      as.length = ds.length → as.length = ps.length →
      (∃ s ∈ ds, pythonInt s = none) →
      isValueError (buildDict acc as ds ps) = true := by
  intro as
  induction as with
  | nil =>
    intro ds ps acc h1 _ hbad
    obtain ⟨s, hs, _⟩ := hbad
    rw [show ds = [] from (List.length_eq_zero.mp h1.symm)] at hs
    simp at hs
  | cons a as ih =>
    intro ds ps acc h1 h2 hbad
    cases ds with
    | nil => simp at h1
    | cons du dus =>
      cases ps with
      | nil => simp at h2
      | cons p ps' =>
        unfold buildDict
        cases hpi : pythonInt du with
        | none => simp [isValueError]
        | some n =>
          obtain ⟨s, hs, hsn⟩ := hbad
          rcases List.mem_cons.mp hs with he | hm
          · subst he
            rw [hpi] at hsn
            exact absurd hsn (by simp)
          · exact ih dus ps' _ (by simpa using h1) (by simpa using h2)
              ⟨s, hm, hsn⟩

/-- C8 (amended) — a duration string that fails to parse as an integer
aborts the whole computation with a `ValueError`-style failure (so no
schedule is returned); note the original claim's "non-negative" is wrong:
negative strings such as `"-3"` are accepted, see the counterexample. -/
theorem c8_nonnumeric_duration_aborts (as ds ps : List String)
    (h1 : as.length = ds.length) (h2 : as.length = ps.length)
    (hbad : ∃ s ∈ ds, pythonInt s = none) :
    isValueError (calculate_cpm as ds ps) = true := by
  have hb := buildDict_bad_duration as ds ps [] h1 h2 hbad
  unfold calculate_cpm
  cases hbd : buildDict [] as ds ps with
  | error e =>
    rw [hbd] at hb
    simp only [hbd]
    cases e <;> simp_all [isValueError]
  | ok d0 =>
    rw [hbd] at hb
    simp [isValueError] at hb

/-- Counterexample for C8 as stated: the negative duration string `"-3"`
does not parse as a non-negative integer, yet the scheduler does not abort —
it returns a completed (and meaningless) schedule with duration −3. -/
theorem c8_counterexample :
    calculate_cpm ["A"] ["-3"] [""] =
      .ok (["A"], [("A", ⟨-3, [], 0, -3, some 0, some (-3)⟩)]) := by
  rfl

/-- Witness for C8: the non-numeric duration `"x"` aborts the run. -/
theorem c8_nonnumeric_duration_aborts_witness :
    ((["A"] : List String).length = (["x"] : List String).length ∧
     (["A"] : List String).length = ([""] : List String).length ∧
     (∃ s ∈ (["x"] : List String), pythonInt s = none)) ∧
    isValueError (calculate_cpm ["A"] ["x"] [""]) = true :=
  ⟨⟨by decide, by decide, by decide⟩,
    c8_nonnumeric_duration_aborts ["A"] ["x"] [""] (by decide) (by decide)
      (by decide)⟩

/-! ### C9: the backward pass only ever tightens -/

/-- C9 — during the backward pass every update to a `latest_finish` value
is non-increasing (the anchoring step lowers the infinity sentinel to a
finite value, and each predecessor update takes a `min`), and immediately
after a tightening the touched predecessor's `latest_start` equals its new
`latest_finish` minus its duration. -/
theorem c9_backward_monotone (a : String) (d : AList) (p : String)
    (d' : AList) (db : AList) (b : String) (db' : AList)
    (ht : tightenStep a d p = .ok d')
    (hb : backwardStep db b = .ok db') :
    (∀ k, eLEb (lfOf d' k) (lfOf d k) = true) ∧
    (∀ r', lookup d' p = some r' →
      r'.latest_start = eSub r'.latest_finish r'.duration) ∧
    (∀ k, eLEb (lfOf db' k) (lfOf db k) = true) := by
  refine ⟨tightenStep_mono ht, ?_, backwardStep_mono hb⟩
  intro r' hr'
  obtain ⟨pr, ar, hp, ha, rfl⟩ := tightenStep_inv ht
  rw [lookup_setKey_self (by simp [hp]) _] at hr'
  cases hr'
  rfl

/-- Witness for C9: a concrete tightening (of `A` by `C`, mid backward
pass of Scenario C) and a concrete anchoring visit. -/
theorem c9_backward_monotone_witness :
    (tightenStep "C"
        [("A", ⟨2, [], 0, 2, none, none⟩),
         ("C", ⟨3, ["A"], 5, 8, some 5, some 8⟩)] "A" =
      .ok [("A", ⟨2, [], 0, 2, some 3, some 5⟩),
           ("C", ⟨3, ["A"], 5, 8, some 5, some 8⟩)] ∧
     backwardStep [("Z", ⟨1, [], 0, 1, none, none⟩)] "Z" =
      .ok [("Z", ⟨1, [], 0, 1, some 0, some 1⟩)]) ∧
    ((∀ k, eLEb
        (lfOf [("A", (⟨2, [], 0, 2, some 3, some 5⟩ : ActRec)),
               ("C", ⟨3, ["A"], 5, 8, some 5, some 8⟩)] k)
        (lfOf [("A", (⟨2, [], 0, 2, none, none⟩ : ActRec)),
               ("C", ⟨3, ["A"], 5, 8, some 5, some 8⟩)] k) = true) ∧
     (∀ r', lookup [("A", (⟨2, [], 0, 2, some 3, some 5⟩ : ActRec)),
               ("C", ⟨3, ["A"], 5, 8, some 5, some 8⟩)] "A" = some r' →
        r'.latest_start = eSub r'.latest_finish r'.duration) ∧
     (∀ k, eLEb
        (lfOf [("Z", (⟨1, [], 0, 1, some 0, some 1⟩ : ActRec))] k)
        (lfOf [("Z", (⟨1, [], 0, 1, none, none⟩ : ActRec))] k) = true)) :=
  ⟨⟨by rfl, by rfl⟩,
    c9_backward_monotone "C"
      [("A", ⟨2, [], 0, 2, none, none⟩),
       ("C", ⟨3, ["A"], 5, 8, some 5, some 8⟩)] "A"
      [("A", ⟨2, [], 0, 2, some 3, some 5⟩),
       ("C", ⟨3, ["A"], 5, 8, some 5, some 8⟩)]
      [("Z", ⟨1, [], 0, 1, none, none⟩)] "Z"
      [("Z", ⟨1, [], 0, 1, some 0, some 1⟩)]
      (by rfl) (by rfl)⟩

/-! ### Positional consequences of the topological-order precondition -/

theorem topoOrd_spec (d0 : AList) :
    ∀ (xs pre : List String) (b : String) (ys : List String),
      topoOrd d0 pre (xs ++ b :: ys) = true →
      ∀ r, lookup d0 b = some r → ∀ p ∈ r.predecessors, p ∈ pre ++ xs := by
  intro xs
  induction xs with
  | nil =>
    intro pre b ys htopo r hr p hp
    simp only [List.nil_append, topoOrd, Bool.and_eq_true] at htopo
    obtain ⟨hpin, _⟩ := htopo
    unfold predsIn at hpin
    rw [hr] at hpin
    simp only [List.all_eq_true, decide_eq_true_eq] at hpin
    simpa using hpin p hp
  | cons x xs ih =>
    intro pre b ys htopo r hr p hp
    simp only [List.cons_append, topoOrd, Bool.and_eq_true] at htopo
    have := ih (pre ++ [x]) b ys htopo.2 r hr p hp
    simpa [List.append_assoc] using this

/-! ### What one backward visit guarantees about the visited activity -/

theorem tightenFold_bound {a : String} :
    ∀ (ps : List String) (d d' : AList),
      foldSteps (tightenStep a) d ps = .ok d' →
      (∀ p ∈ ps, p ≠ a) →
      ∀ ar, lookup d a = some ar →
        lookup d' a = some ar ∧
        ∀ p ∈ ps, eLEb (lfOf d' p) ar.latest_start = true := by
  intro ps
  induction ps with
  | nil =>
    intro d d' h _ ar har
    cases h
    exact ⟨har, by simp⟩
  | cons q qs ih =>
    intro d d' h hne ar har
    obtain ⟨dm, hq, hrest⟩ := foldSteps_cons_inv h
    have hqa : q ≠ a := hne q (List.mem_cons_self q qs)
    have harm : lookup dm a = some ar := by
      rw [tightenStep_lookup_ne hq (fun he => hqa he.symm)]
      exact har
    obtain ⟨hfin, hbound⟩ :=
      ih dm d' hrest (fun p hp => hne p (List.mem_cons_of_mem q hp)) ar harm
    refine ⟨hfin, ?_⟩
    intro p hp
    rcases List.mem_cons.mp hp with he | hm
    · subst he
      obtain ⟨pr, ar2, hpr, ha2, rfl⟩ := tightenStep_inv hq
      have heq : ar2 = ar := by
        rw [har] at ha2
        cases ha2
        rfl
      rw [← heq]
      refine eLEb_trans (tightenFold_mono qs _ d' hrest p) ?_
      rw [lfOf_setKey_self hpr]
      exact eLEb_eMin_right _ _
    · exact hbound p hm

theorem backwardStep_bound {d d' : AList} {a : String}
    (h : backwardStep d a = .ok d')
    (hna : ∀ r, lookup d a = some r → ∀ p ∈ r.predecessors, p ≠ a) :
    ∃ r, lookup d a = some r ∧
      lookup d' a = some
        { r with
          latest_finish := some (anchorLF r)
          latest_start := some (anchorLF r - r.duration) } ∧
      ∀ p ∈ r.predecessors,
        eLEb (lfOf d' p) (some (anchorLF r - r.duration)) = true := by
  obtain ⟨r, hl, hfold⟩ := backwardStep_inv h
  have hmid :
      lookup (setKey d a
        { r with
          latest_finish := some (anchorLF r)
          latest_start := some (anchorLF r - r.duration) }) a =
      some { r with
             latest_finish := some (anchorLF r)
             latest_start := some (anchorLF r - r.duration) } :=
    lookup_setKey_self (by simp [hl]) _
  obtain ⟨hfin, hbound⟩ :=
    tightenFold_bound r.predecessors _ _ hfold (hna r hl) _ hmid
  exact ⟨r, hl, hfin, fun p hp => hbound p hp⟩

/-! ### Visits of later activities leave an already-visited activity
untouched (under the side conditions the topological order provides) -/

theorem backFold_untouched (d0 : AList) (a : String) :
    ∀ (bs : List String) (d d' : AList),
      foldSteps backwardStep d bs = .ok d' →
      viewOf skelF d = viewOf skelF d0 →
      (∀ b ∈ bs, b ≠ a ∧ ∀ r0, lookup d0 b = some r0 → a ∉ r0.predecessors) →
      lookup d' a = lookup d a := by
  intro bs
  induction bs with
  | nil =>
    intro d d' h _ _
    cases h
    rfl
  | cons b bs ih =>
    intro d d' h hskel hbs
    obtain ⟨dm, hb, hrest⟩ := foldSteps_cons_inv h
    obtain ⟨hba, hbp⟩ := hbs b (List.mem_cons_self b bs)
    have huntouched : lookup dm a = lookup d a := by
      refine backwardStep_lookup_ne hb (fun he => hba he.symm) ?_
      intro r hr
      obtain ⟨r0, hr0, hsk⟩ := viewOf_lookup_some skelF hskel hr
      have hpe : r0.predecessors = r.predecessors := congrArg Prod.snd hsk
      rw [← hpe]
      exact hbp r0 hr0
    have hskelm : viewOf skelF dm = viewOf skelF d0 :=
      (skel_of_esef (backwardStep_esef hb)).trans hskel
    rw [ih dm d' hrest hskelm (fun c hc => hbs c (List.mem_cons_of_mem b hc))]
    exact huntouched

/-- C3 — under the precondition that the insertion order is a valid
topological order of the predecessor graph (every referenced predecessor
existing), after both passes every precedence edge `p → a` satisfies
`EF(p) ≤ ES(a)` and `LF(p) ≤ LS(a)`. -/
theorem c3_edge_inequalities {as ds ps cp : List String} {d0 d : AList}
    (hb : buildDict [] as ds ps = .ok d0)
    (htopo : topoOrd d0 [] (keys d0) = true)
    (h : calculate_cpm as ds ps = .ok (cp, d)) :
    ∀ a r, lookup d a = some r → ∀ p ∈ r.predecessors,
      ∃ pr, lookup d p = some pr ∧
        pr.earliest_finish ≤ r.earliest_start ∧
        eLEb pr.latest_finish r.latest_start = true := by
  obtain ⟨d0, d1, hb', hf, hbk, _⟩ := calculate_cpm_inv h
  rw [hb] at hb'
  injection hb' with hd0
  subst hd0
  unfold backwardPass at hbk
  have hnd0 : (keys d0).Nodup := buildDict_nodup as ds ps [] d0 (by simp [keys]) hb
  have hsk10 : viewOf skelF d1 = viewOf skelF d0 := skel_of_lslf (forwardPass_lslf hf)
  have hview21 : viewOf esefF d = viewOf esefF d1 :=
    foldSteps_view esefF (fun _ _ _ hs => backwardStep_esef hs) _ _ _ hbk
  have hsk20 : viewOf skelF d = viewOf skelF d0 := (skel_of_esef hview21).trans hsk10
  have hkeys10 : keys d1 = keys d0 := viewOf_keys skelF hsk10
  have hfs := forwardPass_spec hnd0 htopo hf
  intro a r hra p hp
  obtain ⟨r1, hr1, hfe⟩ := viewOf_lookup_some esefF hview21 hra
  obtain ⟨hdur1, hpreds1, hes1, hef1⟩ := esef_fields_eq hfe
  have hp1 : p ∈ r1.predecessors := by rw [hpreds1]; exact hp
  have hne1 : r1.predecessors ≠ [] := by
    intro he
    rw [he] at hp1
    simp at hp1
  obtain ⟨hsome1, hes_eq, _⟩ := (hfs a r1 hr1).2 hne1
  obtain ⟨pr1, hpr1⟩ := Option.isSome_iff_exists.mp (hsome1 p hp1)
  obtain ⟨pr, hpr, hprfe⟩ := viewOf_lookup_some esefF hview21.symm hpr1
  obtain ⟨hprdur, hprpreds, hpres, hpref⟩ := esef_fields_eq hprfe
  refine ⟨pr, hpr, ?_, ?_⟩
  · have hmem : efOf d1 p ∈ r1.predecessors.map (efOf d1) :=
      List.mem_map_of_mem _ hp1
    have hle := maxList_ge _ _ hmem
    rw [← hes_eq] at hle
    have hef_eq : efOf d1 p = pr1.earliest_finish := by simp [efOf, hpr1]
    rw [hef_eq] at hle
    rw [hpref, ← hes1]
    exact hle
  · have hamem : a ∈ keys d0 := by
      rw [← hkeys10]
      exact (lookup_isSome_iff_mem_keys d1 a).mp (by simp [hr1])
    obtain ⟨xs, ys, hsplit⟩ := List.append_of_mem hamem
    have hrev : (keys d1).reverse = ys.reverse ++ a :: xs.reverse := by
      rw [hkeys10, hsplit]
      simp
    rw [hrev] at hbk
    obtain ⟨dA, hA, hrest2⟩ := foldSteps_append _ _ _ _ hbk
    obtain ⟨dB, hstep, hC⟩ := foldSteps_cons_inv hrest2
    have hnodup_split : a ∉ xs ∧ a ∉ ys := by
      rw [hsplit] at hnd0
      obtain ⟨h1, h2, h3⟩ := List.nodup_append.mp hnd0
      exact ⟨fun hm => h3 hm (List.mem_cons_self a ys),
        (List.nodup_cons.mp h2).1⟩
    have hskA : viewOf skelF dA = viewOf skelF d0 :=
      (skel_of_esef (foldSteps_view esefF
        (fun _ _ _ hs => backwardStep_esef hs) _ _ _ hA)).trans hsk10
    obtain ⟨r0a, hr0a, hsk0a⟩ := viewOf_lookup_some skelF hsk20 hra
    have hpreds0a : r0a.predecessors = r.predecessors := congrArg Prod.snd hsk0a
    have hpredsxs : ∀ q ∈ r0a.predecessors, q ∈ xs := by
      intro q hq
      have := topoOrd_spec d0 xs [] a ys
        (by rw [← hsplit]; exact htopo) r0a hr0a q hq
      simpa using this
    have hna : ∀ rA, lookup dA a = some rA → ∀ q ∈ rA.predecessors, q ≠ a := by
      intro rA hrA q hq he
      obtain ⟨r0b, hr0b, hsk'⟩ := viewOf_lookup_some skelF hskA hrA
      have he0 : r0a = r0b := by
        rw [hr0a] at hr0b
        exact Option.some.inj hr0b
      have hpe : r0b.predecessors = rA.predecessors := congrArg Prod.snd hsk'
      have hq0 : q ∈ r0a.predecessors := by
        rw [he0, hpe]
        exact hq
      have hqx : q ∈ xs := hpredsxs q hq0
      subst he
      exact hnodup_split.1 hqx
    obtain ⟨rA, hrA, hanch, hbound⟩ := backwardStep_bound hstep hna
    obtain ⟨r0c, hr0c, hsk''⟩ := viewOf_lookup_some skelF hskA hrA
    have he0 : r0a = r0c := by
      rw [hr0a] at hr0c
      exact Option.some.inj hr0c
    have hpredsA : r0a.predecessors = rA.predecessors := by
      rw [he0]
      exact congrArg Prod.snd hsk''
    have hskB : viewOf skelF dB = viewOf skelF d0 :=
      (skel_of_esef (backwardStep_esef hstep)).trans hskA
    have huntouch : lookup d a = lookup dB a := by
      refine backFold_untouched d0 a xs.reverse dB d hC hskB ?_
      intro b hbm
      rw [List.mem_reverse] at hbm
      constructor
      · intro he
        subst he
        exact hnodup_split.1 hbm
      · intro r0b hr0b hmem_a
        obtain ⟨s, t, hxs_split⟩ := List.append_of_mem hbm
        have hks : keys d0 = s ++ b :: (t ++ a :: ys) := by
          rw [hsplit, hxs_split]
          simp
        have hins := topoOrd_spec d0 s [] b (t ++ a :: ys)
          (by rw [← hks]; exact htopo) r0b hr0b a hmem_a
        simp only [List.nil_append] at hins
        have hax : a ∈ xs := by
          rw [hxs_split]
          exact List.mem_append_left _ hins
        exact hnodup_split.1 hax
    rw [hra, hanch] at huntouch
    have hreq := Option.some.inj huntouch
    have hmonoC : eLEb (lfOf d p) (lfOf dB p) = true := backFold_mono xs.reverse dB d hC p
    have hpA : p ∈ rA.predecessors := by
      rw [← hpredsA, hpreds0a]
      exact hp
    have hfinal : eLEb (lfOf d p) (some (anchorLF rA - rA.duration)) = true :=
      eLEb_trans hmonoC (hbound p hpA)
    have hlf_eq : lfOf d p = pr.latest_finish := by simp [lfOf, hpr]
    rw [hlf_eq] at hfinal
    have hls_eq : r.latest_start = some (anchorLF rA - rA.duration) := by
      rw [hreq]
    rw [hls_eq]
    exact hfinal

/-- Witness for C3 at the spec's Scenario C. -/
theorem c3_edge_inequalities_witness :
    (buildDict [] ["A", "B", "C"] ["2", "5", "3"] ["", "", "A,B"] =
      .ok [("A", ⟨2, [], 0, 0, none, none⟩),
           ("B", ⟨5, [], 0, 0, none, none⟩),
           ("C", ⟨3, ["A", "B"], 0, 0, none, none⟩)] ∧
     topoOrd [("A", (⟨2, [], 0, 0, none, none⟩ : ActRec)),
              ("B", ⟨5, [], 0, 0, none, none⟩),
              ("C", ⟨3, ["A", "B"], 0, 0, none, none⟩)] []
        (keys [("A", (⟨2, [], 0, 0, none, none⟩ : ActRec)),
               ("B", ⟨5, [], 0, 0, none, none⟩),
               ("C", ⟨3, ["A", "B"], 0, 0, none, none⟩)]) = true) ∧
    (∀ a r,
      lookup [("A", (⟨2, [], 0, 2, some 3, some 5⟩ : ActRec)),
              ("B", ⟨5, [], 0, 5, some 0, some 5⟩),
              ("C", ⟨3, ["A", "B"], 5, 8, some 5, some 8⟩)] a = some r →
      ∀ p ∈ r.predecessors,
        ∃ pr, lookup [("A", (⟨2, [], 0, 2, some 3, some 5⟩ : ActRec)),
                      ("B", ⟨5, [], 0, 5, some 0, some 5⟩),
                      ("C", ⟨3, ["A", "B"], 5, 8, some 5, some 8⟩)] p = some pr ∧
          pr.earliest_finish ≤ r.earliest_start ∧
          eLEb pr.latest_finish r.latest_start = true) :=
  ⟨⟨by rfl, by decide⟩,
    @c3_edge_inequalities ["A", "B", "C"] ["2", "5", "3"] ["", "", "A,B"]
      ["B", "C"]
      [("A", ⟨2, [], 0, 0, none, none⟩),
       ("B", ⟨5, [], 0, 0, none, none⟩),
       ("C", ⟨3, ["A", "B"], 0, 0, none, none⟩)]
      [("A", ⟨2, [], 0, 2, some 3, some 5⟩),
       ("B", ⟨5, [], 0, 5, some 0, some 5⟩),
       ("C", ⟨3, ["A", "B"], 5, 8, some 5, some 8⟩)]
      (by rfl) (by decide) (by rfl)⟩

/-- C10 (amended) — about the last activity `z` in insertion order: when no
activity lists `z` as a predecessor (in particular whenever the insertion
order is topological, since `z` is last), `z` ends the backward pass with
`LF = EF` and `LS = ES`, so it lies on the critical path and the critical
path of a non-empty schedule is non-empty.  Without that proviso the claim
fails, see the counterexample. -/
theorem c10_last_activity {as ds ps cp : List String} {d0 d : AList}
    {ws : List String} {z : String}
    (hb : buildDict [] as ds ps = .ok d0)
    (hlast : keys d0 = ws ++ [z])
    (hnosucc : ∀ kv ∈ d0, z ∉ kv.2.predecessors)
    (h : calculate_cpm as ds ps = .ok (cp, d)) :
    (∃ r, lookup d z = some r ∧
      r.latest_finish = some r.earliest_finish ∧
      r.latest_start = some r.earliest_start) ∧
    z ∈ cp ∧ cp ≠ [] := by
  obtain ⟨d0x, d1, hb', hf, hbk, hcp⟩ := calculate_cpm_inv h
  rw [hb] at hb'
  injection hb' with he
  subst he
  unfold backwardPass at hbk
  have hnd0 : (keys d0).Nodup := buildDict_nodup as ds ps [] d0 (by simp [keys]) hb
  have hsk10 : viewOf skelF d1 = viewOf skelF d0 := skel_of_lslf (forwardPass_lslf hf)
  have hkeys10 : keys d1 = keys d0 := viewOf_keys skelF hsk10
  have hrev : (keys d1).reverse = z :: ws.reverse := by
    rw [hkeys10, hlast]
    simp
  rw [hrev] at hbk
  obtain ⟨dB, hstep, hC⟩ := foldSteps_cons_inv hbk
  have hnosucc' : ∀ k r0, lookup d0 k = some r0 → z ∉ r0.predecessors := by
    intro k r0 hl
    exact hnosucc (k, r0) (lookup_mem d0 k hl)
  have hna : ∀ rz, lookup d1 z = some rz → ∀ q ∈ rz.predecessors, q ≠ z := by
    intro rz hrz q hq he
    obtain ⟨r0z, hr0z, hskz⟩ := viewOf_lookup_some skelF hsk10 hrz
    have hpe : r0z.predecessors = rz.predecessors := congrArg Prod.snd hskz
    subst he
    exact hnosucc' q r0z hr0z (by rw [hpe]; exact hq)
  obtain ⟨rz, hrz, hanch, _⟩ := backwardStep_bound hstep hna
  have hfresh0 : ∀ k r, lookup d0 k = some r → freshRec r :=
    buildDict_fresh _ _ _ _ _ hb (by intro k r hl; simp [lookup] at hl)
  obtain ⟨r0z, hr0z, hskz⟩ := viewOf_lookup_some lslfF (forwardPass_lslf hf) hrz
  obtain ⟨_, _, _, hlfz⟩ := lslf_fields_eq hskz
  have hlf_none : rz.latest_finish = none := by
    rw [← hlfz]
    exact (hfresh0 _ _ hr0z).2.2.2
  have hesef := forwardPass_esef hf z rz hrz
  have hanchval : anchorLF rz = rz.earliest_finish := by
    simp [anchorLF, hlf_none]
  have hskB : viewOf skelF dB = viewOf skelF d0 :=
    (skel_of_esef (backwardStep_esef hstep)).trans hsk10
  have hzws : z ∉ ws := by
    rw [hlast] at hnd0
    obtain ⟨_, _, hdisj⟩ := List.nodup_append.mp hnd0
    exact fun hm => hdisj hm (by simp)
  have huntouch : lookup d z = lookup dB z := by
    refine backFold_untouched d0 z ws.reverse dB d hC hskB ?_
    intro b hbm
    rw [List.mem_reverse] at hbm
    exact ⟨fun he => hzws (he ▸ hbm), fun r0 hr0 => hnosucc' b r0 hr0⟩
  rw [hanch] at huntouch
  obtain ⟨rfin, hlook, hfe1, hfe2⟩ :
      ∃ rf, lookup d z = some rf ∧
        rf.latest_finish = some rf.earliest_finish ∧
        rf.latest_start = some rf.earliest_start := by
    refine ⟨_, huntouch, ?_, ?_⟩
    · simp [hanchval]
    · simp [hanchval, hesef]
  have hzcp : z ∈ criticalPath d :=
    (criticalPath_mem_iff (calculate_cpm_keys_nodup h) z).mpr ⟨rfin, hlook, hfe2⟩
  refine ⟨⟨rfin, hlook, hfe1, hfe2⟩, ?_, ?_⟩
  · rw [hcp]
    exact hzcp
  · rw [hcp]
    exact List.ne_nil_of_mem hzcp

/-- Counterexample for C10 as stated.  First input: activities `B` (preds
`Z`) and `Z` last; the backward pass anchors `Z` but then tightens it while
visiting `B`, so `Z` ends with `LF = 0 ≠ 1 = EF`, `LS = −1 ≠ 0 = ES` and is
not on the critical path.  Second input (cyclic predecessor lists): a
non-empty schedule whose critical path is empty. -/
theorem c10_counterexample :
    (calculate_cpm ["B", "Z"] ["1", "1"] ["Z", ""] =
      .ok (["B"],
        [("B", ⟨1, ["Z"], 0, 1, some 0, some 1⟩),
         ("Z", ⟨1, [], 0, 1, some (-1), some 0⟩)]) ∧
     "Z" ∉ (["B"] : List String)) ∧
    calculate_cpm ["A", "B", "C"] ["1", "2", "1"] ["", "A", "C,B"] =
      .ok ([],
        [("A", ⟨1, [], 0, 1, some (-1), some 0⟩),
         ("B", ⟨2, ["A"], 1, 3, some 0, some 2⟩),
         ("C", ⟨1, ["C", "B"], 3, 4, some 2, some 3⟩)]) :=
  ⟨⟨by rfl, by decide⟩, by rfl⟩

/-- Witness for C10 at the spec's Scenario C (last activity `C`, which no
activity lists as a predecessor). -/
theorem c10_last_activity_witness :
    (buildDict [] ["A", "B", "C"] ["2", "5", "3"] ["", "", "A,B"] =
      .ok [("A", ⟨2, [], 0, 0, none, none⟩),
           ("B", ⟨5, [], 0, 0, none, none⟩),
           ("C", ⟨3, ["A", "B"], 0, 0, none, none⟩)] ∧
     keys [("A", (⟨2, [], 0, 0, none, none⟩ : ActRec)),
           ("B", ⟨5, [], 0, 0, none, none⟩),
           ("C", ⟨3, ["A", "B"], 0, 0, none, none⟩)] = ["A", "B"] ++ ["C"] ∧
     (∀ kv ∈ [("A", (⟨2, [], 0, 0, none, none⟩ : ActRec)),
              ("B", ⟨5, [], 0, 0, none, none⟩),
              ("C", ⟨3, ["A", "B"], 0, 0, none, none⟩)],
        "C" ∉ kv.2.predecessors)) ∧
    ((∃ r, lookup [("A", (⟨2, [], 0, 2, some 3, some 5⟩ : ActRec)),
                   ("B", ⟨5, [], 0, 5, some 0, some 5⟩),
                   ("C", ⟨3, ["A", "B"], 5, 8, some 5, some 8⟩)] "C" = some r ∧
        r.latest_finish = some r.earliest_finish ∧
        r.latest_start = some r.earliest_start) ∧
      "C" ∈ (["B", "C"] : List String) ∧ (["B", "C"] : List String) ≠ []) :=
  ⟨⟨by rfl, by rfl, by decide⟩,
    @c10_last_activity ["A", "B", "C"] ["2", "5", "3"] ["", "", "A,B"]
      ["B", "C"]
      [("A", ⟨2, [], 0, 0, none, none⟩),
       ("B", ⟨5, [], 0, 0, none, none⟩),
       ("C", ⟨3, ["A", "B"], 0, 0, none, none⟩)]
      [("A", ⟨2, [], 0, 2, some 3, some 5⟩),
       ("B", ⟨5, [], 0, 5, some 0, some 5⟩),
       ("C", ⟨3, ["A", "B"], 5, 8, some 5, some 8⟩)]
      ["A", "B"] "C"
      (by rfl) (by rfl) (by decide) (by rfl)⟩

end CPM
